import Mathlib

/-!
Verification development for the TinyTask macro editor core: the `.rec`
binary codec (`src/lib/recParser.ts`) and the editable-timeline store
(`src/hooks/useRecEditor.ts`), shallowly embedded in Lean.

Byte buffers are lists of naturals below 256 (little-endian `DataView`
reads and writes become explicit base-256 arithmetic).  JavaScript
numbers that may be negative, fractional or non-finite are embedded as
`JSNum`: finite values are rationals, plus `nan`, `posInf`, `negInf`.
-/

/-- A JavaScript number as observed by the editor code: a finite value
(modelled as a rational; float rounding is not modelled) or one of the
three non-finite values. -/
inductive JSNum where
  | finite (q : ℚ)
  | nan
  | posInf
  | negInf
deriving DecidableEq, Repr

instance : Inhabited JSNum := ⟨.finite 0⟩

/-- `Number.isFinite`. -/
def JSNum.isFinite : JSNum → Bool
  | .finite _ => true
  | _ => false

/-- JavaScript `===` on numbers: `NaN === NaN` is `false`. -/
def jsEq : JSNum → JSNum → Bool
  | .finite a, .finite b => decide (a = b)
  | .posInf, .posInf => true
  | .negInf, .negInf => true
  | _, _ => false

/-- Rounding of `Math.round` on a finite value: half-way cases round
toward positive infinity, i.e. `⌊q + 1/2⌋`, computed as the floor
division `(2·num + den) / (2·den)` so that it evaluates by kernel
reduction. -/
def jsRoundQ (q : ℚ) : ℤ := (2 * q.num + q.den) / (2 * q.den)

/-- `Math.round`: finite values round via `jsRoundQ`; non-finite
values pass through. -/
def jsRound : JSNum → JSNum
  | .finite q => .finite ((jsRoundQ q : ℤ) : ℚ)
  | v => v

/-- JavaScript `+` on numbers. -/
def jsAdd : JSNum → JSNum → JSNum
  | .nan, _ => .nan
  | _, .nan => .nan
  | .posInf, .negInf => .nan
  | .negInf, .posInf => .nan
  | .posInf, _ => .posInf
  | _, .posInf => .posInf
  | .negInf, _ => .negInf
  | _, .negInf => .negInf
  | .finite a, .finite b => .finite (a + b)

/-- `Math.max` on two numbers: `NaN` is contagious. -/
def jsMax : JSNum → JSNum → JSNum
  | .nan, _ => .nan
  | _, .nan => .nan
  | .posInf, _ => .posInf
  | _, .posInf => .posInf
  | .negInf, b => b
  | a, .negInf => a
  | .finite a, .finite b => .finite (max a b)

/-- JavaScript `>=` on numbers: any comparison with `NaN` is `false`. -/
def jsGe : JSNum → JSNum → Bool
  | .nan, _ => false
  | _, .nan => false
  | .posInf, _ => true
  | .negInf, .negInf => true
  | .negInf, _ => false
  | .finite _, .posInf => false
  | .finite _, .negInf => true
  | .finite a, .finite b => decide (b ≤ a)

/-- `Math.trunc` on a finite value: round toward zero, i.e. the
truncated division of the numerator by the (positive) denominator. -/
def jsTrunc (q : ℚ) : ℤ := Int.tdiv q.num q.den

/-- JavaScript `%` (truncated remainder, sign of the dividend) for a
positive natural modulus. -/
def jsRem (a : ℤ) (b : ℕ) : ℤ := if a < 0 then -((-a) % (b : ℤ)) else a % (b : ℤ)

/-! ## Codec (`src/lib/recParser.ts`) -/

def RECORD_BYTE_LENGTH : Nat := 20

def UINT32_SIZE : Nat := 4

def UINT32_MAX : Nat := 4294967296

/-- Decoded form of one 20-byte record (`TinyTaskEvent` in
`recParser.ts`); all five stored fields are uint32 reads, `time` and
`delay` are derived naturals. -/
structure TinyTaskEvent where
  message : Nat
  paramL : Nat
  paramH : Nat
  time : Nat
  delay : Nat
  hwnd : Nat
deriving DecidableEq, Repr

/-- Result of `parseRec` (`ParseResult` in `recParser.ts`). -/
structure ParseResult where
  events : List TinyTaskEvent
  baseTime : Nat
  hwnds : List Nat
  duration : Nat
deriving DecidableEq, Repr

/-- `DataView.getUint32(offset, true)`: little-endian read of four
bytes.  Out-of-range positions read as 0; every use in `parseRec` is
in range. -/
def getUint32 (b : List Nat) (offset : Nat) : Nat :=
  b.getD offset 0 + 256 * b.getD (offset + 1) 0 + 65536 * b.getD (offset + 2) 0 +
    16777216 * b.getD (offset + 3) 0

/-- `DataView.setUint32(offset, n, true)`: the four little-endian bytes
of `n` (the codec only writes values below `2^32`). -/
def putUint32 (n : Nat) : List Nat :=
  [n % 256, n / 256 % 256, n / 65536 % 256, n / 16777216 % 256]

/-- `diffUint32` from `recParser.ts`.  JavaScript computes
`(current - previous + 2^32) % 2^32` whose dividend is positive for
`previous < 2^32` (always the case: both arguments are `getUint32`
reads), which equals the ℕ expression below. -/
def diffUint32 (current previous : Nat) : Nat :=
  (current + UINT32_MAX - previous) % UINT32_MAX

/-- The record loop of `parseRec` from record `index` on, with `k`
records left to read, carrying `previousAbsoluteTime` and the previous
event's derived `time`. -/
def parseFrom (b : List Nat) : Nat → Nat → Nat → Nat → List TinyTaskEvent
  | 0, _, _, _ => []
  | k + 1, index, previousAbsoluteTime, previousTime =>
    let offset := index * RECORD_BYTE_LENGTH
    let message := getUint32 b offset
    let paramL := getUint32 b (offset + UINT32_SIZE)
    let paramH := getUint32 b (offset + UINT32_SIZE * 2)
    let absoluteTime := getUint32 b (offset + UINT32_SIZE * 3)
    let hwnd := getUint32 b (offset + UINT32_SIZE * 4)
    let elapsed := diffUint32 absoluteTime previousAbsoluteTime
    let time := previousTime + elapsed
    { message := message, paramL := paramL, paramH := paramH,
      time := time, delay := elapsed, hwnd := hwnd }
      :: parseFrom b k (index + 1) absoluteTime time

/-- Insertion into the `hwndSet`; JavaScript `Set` iteration is in
insertion order, so the set is modelled as a duplicate-free list. -/
def insertHwnd (hwnds : List Nat) (h : Nat) : List Nat :=
  if h ∈ hwnds then hwnds else hwnds ++ [h]

/-- `parseRec` from `recParser.ts`: empty input decodes to an empty
result, a length that is not a multiple of 20 is an error, otherwise
the first record seeds `baseTime` with derived `time = delay = 0` and
the remaining records are read by `parseFrom`. -/
def parseRec (source : List Nat) : Except String ParseResult :=
  if source.length = 0 then
    .ok { events := [], baseTime := 0, hwnds := [], duration := 0 }
  else if source.length % RECORD_BYTE_LENGTH ≠ 0 then
    .error ("Unexpected .rec size: " ++ toString source.length ++
      " bytes is not a multiple of " ++ toString RECORD_BYTE_LENGTH ++ ".")
  else
    let recordCount := source.length / RECORD_BYTE_LENGTH
    let message := getUint32 source 0
    let paramL := getUint32 source UINT32_SIZE
    let paramH := getUint32 source (UINT32_SIZE * 2)
    let baseTime := getUint32 source (UINT32_SIZE * 3)
    let hwnd := getUint32 source (UINT32_SIZE * 4)
    let first : TinyTaskEvent :=
      { message := message, paramL := paramL, paramH := paramH,
        time := 0, delay := 0, hwnd := hwnd }
    let events := first :: parseFrom source (recordCount - 1) 1 baseTime 0
    let duration := match events.getLast? with
      | some e => e.time
      | none => 0
    let hwnds := events.foldl (fun acc e => insertHwnd acc e.hwnd) []
    .ok { events := events, baseTime := baseTime, hwnds := hwnds, duration := duration }

/-- `toUint32` from `recParser.ts`: non-finite values become 0, finite
values are truncated toward zero and reduced into `[0, 2^32)` by
`((n % 2^32) + 2^32) % 2^32` (JavaScript truncated remainder). -/
def toUint32 (value : JSNum) : Nat :=
  match value with
  | .finite q => ((jsRem (jsTrunc q) UINT32_MAX + (UINT32_MAX : ℤ)) % (UINT32_MAX : ℤ)).toNat
  | _ => 0

/-- `EncodableEvent` from `recParser.ts`.  The embedding keeps the four
raw uint32-sourced fields as naturals; `delay` is an arbitrary
JavaScript number. -/
structure EncodableEvent where
  message : Nat
  paramL : Nat
  paramH : Nat
  delay : JSNum
  hwnd : Nat
deriving DecidableEq, Repr

/-- `EncodeOptions` from `recParser.ts`. -/
structure EncodeOptions where
  baseTime : Option JSNum
deriving Repr

/-- One 20-byte record as written by the `forEach` body of `encodeRec`:
five little-endian uint32 fields with the given absolute timestamp. -/
def encodeRecord (e : EncodableEvent) (absoluteTime : Nat) : List Nat :=
  putUint32 (toUint32 (.finite (e.message : ℚ))) ++
    putUint32 (toUint32 (.finite (e.paramL : ℚ))) ++
    putUint32 (toUint32 (.finite (e.paramH : ℚ))) ++
    putUint32 absoluteTime ++
    putUint32 (toUint32 (.finite (e.hwnd : ℚ)))

/-- The `index > 0` iterations of `encodeRec`'s loop: each record
advances the running absolute timestamp by
`Math.max(0, toUint32(delay))` modulo `2^32`. -/
def encodeFrom : List EncodableEvent → Nat → List Nat
  | [], _ => []
  | e :: rest, absoluteTime =>
    let increment := max 0 (toUint32 e.delay)
    let nextAbsolute := (absoluteTime + increment) % UINT32_MAX
    encodeRecord e nextAbsolute ++ encodeFrom rest nextAbsolute

/-- `encodeRec` from `recParser.ts`: an empty list encodes to an empty
buffer; otherwise record 0 is written with absolute timestamp
`toUint32(options.baseTime ?? 0)` and the rest by `encodeFrom`. -/
def encodeRec (events : List EncodableEvent) (options : EncodeOptions) : List Nat :=
  match events with
  | [] => []
  | e0 :: rest =>
    let baseTime := toUint32 (options.baseTime.getD (.finite 0))
    encodeRecord e0 baseTime ++ encodeFrom rest baseTime

/-- `cloneAsEncodable` from `recParser.ts`. -/
def cloneAsEncodable (events : List TinyTaskEvent) : List EncodableEvent :=
  events.map fun e =>
    { message := e.message, paramL := e.paramL, paramH := e.paramH,
      delay := .finite (e.delay : ℚ), hwnd := e.hwnd }


/-! ## Editor store (`src/hooks/useRecEditor.ts`) -/

def HISTORY_LIMIT : Nat := 50

/-- Event identity strings.  `createEditorEvents` builds the string
`"${index}-${time}-${message}-${paramL}-${paramH}"` (digits and dashes,
starting with a digit); `insertEvents` builds
`"new-${Date.now()}-${i}-${Math.random()}"`.  Both formats are
injective in their components and mutually disjoint (one starts with a
digit, the other with `new-`), so ids are embedded as this inductive;
`fresh`'s `now`/`rand` components stand for the `Date.now()` /
`Math.random()` strings sampled at creation. -/
inductive EventId where
  | loaded (index time message paramL paramH : Nat)
  | fresh (now i rand : Nat)
deriving DecidableEq, Repr

instance : Inhabited EventId := ⟨.loaded 0 0 0 0 0⟩

/-- True for ids produced by `createEditorEvents` (load/merge parse). -/
def EventId.isLoaded : EventId → Bool
  | .loaded _ _ _ _ _ => true
  | .fresh _ _ _ => false

/-- `EditorEvent` from `useRecEditor.ts`.  `delay` is an arbitrary
JavaScript number (pre-normalization inserts can store raw input);
`time` only ever holds derived natural values. -/
structure EditorEvent where
  id : EventId
  message : Nat
  paramL : Nat
  paramH : Nat
  delay : JSNum
  time : Nat
  hwnd : Nat
deriving DecidableEq, Repr

instance : Inhabited EditorEvent :=
  ⟨{ id := default, message := 0, paramL := 0, paramH := 0,
     delay := .finite 0, time := 0, hwnd := 0 }⟩

/-- `sanitizeDelay` from `useRecEditor.ts`: non-finite or negative
input yields 0, otherwise round to nearest and clamp to `2^32 - 1`. -/
def sanitizeDelay (value : JSNum) : Nat :=
  match value with
  | .finite q => if q < 0 then 0 else min (jsRoundQ q).toNat (UINT32_MAX - 1)
  | _ => 0

/-- The `index > 0` part of `recomputeTimeline`: sanitize each delay
and accumulate it into the running `elapsed` time. -/
def recomputeRest (elapsed : Nat) : List EditorEvent → List EditorEvent
  | [] => []
  | e :: rest =>
    let delay := sanitizeDelay e.delay
    { e with delay := .finite (delay : ℚ), time := elapsed + delay }
      :: recomputeRest (elapsed + delay) rest

/-- `recomputeTimeline` from `useRecEditor.ts`: the first event's
`delay` and `time` are forced to 0, later events get sanitized delays
and running-sum times. -/
def recomputeTimeline : List EditorEvent → List EditorEvent
  | [] => []
  | e :: rest => { e with delay := .finite 0, time := 0 } :: recomputeRest 0 rest

/-- `map` with the element index, used to embed the indexed `map` /
`forEach` callbacks of the store. -/
def mapWithIndex (f : Nat → α → β) : Nat → List α → List β
  | _, [] => []
  | i, a :: l => f i a :: mapWithIndex f (i + 1) l

/-- `createEditorEvents` from `useRecEditor.ts`: parsed events receive
the id `"${index}-${time}-${message}-${paramL}-${paramH}"`. -/
def createEditorEvents (events : List TinyTaskEvent) : List EditorEvent :=
  mapWithIndex (fun index e =>
    { id := .loaded index e.time e.message e.paramL e.paramH,
      message := e.message, paramL := e.paramL, paramH := e.paramH,
      delay := .finite (e.delay : ℚ), time := e.time, hwnd := e.hwnd }) 0 events

/-- `EventMutationResult` from `useRecEditor.ts`. -/
structure EventMutationResult where
  next : List EditorEvent
  selectionOverride : Option (Finset EventId)

/-- The options object taken by `commitEvents` (`resetAnchor` defaults
to `false`, `trackHistory` to `true` at every call site). -/
structure CommitOptions where
  resetAnchor : Bool
  trackHistory : Bool

/-- The React state owned by `useRecEditor`. -/
structure EditorState where
  events : List EditorEvent
  initialEvents : List EditorEvent
  baseTime : Nat
  fileName : Option String
  loading : Bool
  error : Option String
  isDirty : Bool
  selectedIds : Finset EventId
  selectionAnchor : Option Nat
  history : List (List EditorEvent)
  future : List (List EditorEvent)
deriving DecidableEq

/-- Bounded stack push: append, then `shift()` the oldest entry if the
bound of `HISTORY_LIMIT` is exceeded. -/
def capPush (stack : List (List EditorEvent)) (snapshot : List EditorEvent) :
    List (List EditorEvent) :=
  let next := stack ++ [snapshot]
  if HISTORY_LIMIT < next.length then next.tail else next

/-- `commitEvents` from `useRecEditor.ts`: run the mutator on the
current events; on `null` only the optional anchor reset happens; on a
result, recompute the timeline, push the pre-mutation snapshot onto
history (clearing redo), mark dirty, and prune/override the selection
against the ids of the recomputed sequence. -/
def commitEvents (mutator : List EditorEvent → Option EventMutationResult)
    (options : CommitOptions) (s : EditorState) : EditorState :=
  match mutator s.events with
  | none =>
    if options.resetAnchor then { s with selectionAnchor := none } else s
  | some mutation =>
    let recomputed := recomputeTimeline mutation.next
    let s1 := if options.trackHistory then
        { s with history := capPush s.history s.events, future := [] }
      else s
    let availableIds := (recomputed.map (fun e => e.id)).toFinset
    let newSelection := match mutation.selectionOverride with
      | some override => override.filter (fun id => id ∈ availableIds)
      | none => s.selectedIds.filter (fun id => id ∈ availableIds)
    let anchorCleared := options.resetAnchor ||
      (match mutation.selectionOverride with
        | some override => decide (override = ∅)
        | none => false)
    { s1 with
      events := recomputed, isDirty := true, selectedIds := newSelection,
      selectionAnchor := if anchorCleared then none else s.selectionAnchor }

/-- `loadFile` from `useRecEditor.ts`, with the awaited bytes and file
name passed directly: on parse failure only `error`/`loading` change;
on success the parsed events become both baseline and working
sequence, and selection plus both history stacks are cleared. -/
def loadFile (fileName : String) (bytes : List Nat) (s : EditorState) : EditorState :=
  let s0 := { s with error := none, loading := true }
  match parseRec bytes with
  | .error e => { s0 with error := some e, loading := false }
  | .ok parsed =>
    let editorEvents := recomputeTimeline (createEditorEvents parsed.events)
    { s0 with
      events := editorEvents, initialEvents := editorEvents,
      baseTime := parsed.baseTime, fileName := some fileName, isDirty := false,
      selectedIds := ∅, selectionAnchor := none, history := [], future := [],
      loading := false }

/-- `updateDelay` from `useRecEditor.ts`.  The source tracks a
`didChange` flag while mapping; the embedding pairs each element with
its change flag. -/
def updateDelay (id : EventId) (value : JSNum) (s : EditorState) : EditorState :=
  let normalized := sanitizeDelay value
  commitEvents (fun current =>
    let step := current.map (fun e =>
      if e.id ≠ id then (e, false)
      else if jsEq e.delay (.finite (normalized : ℚ)) then (e, false)
      else ({ e with delay := .finite (normalized : ℚ) }, true))
    if step.any (fun p => p.2) then
      some { next := step.map (fun p => p.1), selectionOverride := none }
    else none)
    { resetAnchor := false, trackHistory := true } s

/-- `removeEvent` from `useRecEditor.ts`. -/
def removeEvent (id : EventId) (s : EditorState) : EditorState :=
  commitEvents (fun current =>
    if current.any (fun e => e.id = id) then
      some { next := current.filter (fun e => e.id ≠ id), selectionOverride := none }
    else none)
    { resetAnchor := false, trackHistory := true } s

/-- `resetChanges` from `useRecEditor.ts`. -/
def resetChanges (s : EditorState) : EditorState :=
  if s.initialEvents.isEmpty then s
  else
    { s with
      events := recomputeTimeline s.initialEvents, isDirty := false,
      selectedIds := ∅, selectionAnchor := none, history := [], future := [] }

/-- `toggleSelection` from `useRecEditor.ts`: with `shift` (and a
nonempty sequence) select the closed index range between the anchor
and `index` (added to the prior selection when `meta` is held,
replacing it otherwise); without `shift`, toggle membership of `id`. -/
def toggleSelection (id : EventId) (index : Nat) (shift meta : Bool)
    (s : EditorState) : EditorState :=
  let anchor := s.selectionAnchor.getD index
  if shift && !s.events.isEmpty then
    let start := max 0 (min anchor index)
    let stop := min (s.events.length - 1) (max anchor index)
    let base := if meta then s.selectedIds else ∅
    let rangeIds := (((s.events.drop start).take (stop + 1 - start)).map
      (fun e => e.id)).toFinset
    { s with
      selectedIds := base ∪ rangeIds,
      selectionAnchor := if s.selectionAnchor = none then some index else s.selectionAnchor }
  else
    let next := if id ∈ s.selectedIds then s.selectedIds.erase id else insert id s.selectedIds
    { s with
      selectedIds := next,
      selectionAnchor := if next = ∅ then none else some index }

/-- `selectAll` from `useRecEditor.ts`. -/
def selectAll (s : EditorState) : EditorState :=
  { s with selectedIds := (s.events.map (fun e => e.id)).toFinset, selectionAnchor := none }

/-- `clearSelection` from `useRecEditor.ts`. -/
def clearSelection (s : EditorState) : EditorState :=
  { s with selectedIds := ∅, selectionAnchor := none }

/-- `applyToSelection` from `useRecEditor.ts`: apply an updater to each
selected event; an updater returning `none` leaves that event alone,
and the whole commit is skipped if nothing changed. -/
def applyToSelection (updater : EditorEvent → Nat → Option EditorEvent)
    (s : EditorState) : EditorState :=
  if s.selectedIds = ∅ then s
  else
    commitEvents (fun current =>
      let step := mapWithIndex (fun index e =>
        if e.id ∈ s.selectedIds then
          match updater e index with
          | some updated => (updated, true)
          | none => (e, false)
        else (e, false)) 0 current
      if step.any (fun p => p.2) then
        some { next := step.map (fun p => p.1), selectionOverride := none }
      else none)
      { resetAnchor := false, trackHistory := true } s

/-- `applyDelayToSelection` from `useRecEditor.ts`. -/
def applyDelayToSelection (value : JSNum) (s : EditorState) : EditorState :=
  let normalized := sanitizeDelay value
  applyToSelection (fun e _ =>
    if jsEq e.delay (.finite (normalized : ℚ)) then none
    else some { e with delay := .finite (normalized : ℚ) }) s

/-- `addDelayToSelection` from `useRecEditor.ts`. -/
def addDelayToSelection (delta : JSNum) (s : EditorState) : EditorState :=
  let deltaRounded := jsRound delta
  applyToSelection (fun e _ =>
    let nextDelay := sanitizeDelay (jsAdd e.delay deltaRounded)
    if jsEq (.finite (nextDelay : ℚ)) e.delay then none
    else some { e with delay := .finite (nextDelay : ℚ) }) s

/-- `clampSmallDelays` from `useRecEditor.ts`. -/
def clampSmallDelays (threshold : JSNum) (s : EditorState) : EditorState :=
  let limit := jsMax (.finite 0) (jsRound threshold)
  applyToSelection (fun e index =>
    if index = 0 then none
    else if jsEq e.delay (.finite 0) || jsGe e.delay limit then none
    else some { e with delay := .finite 0 }) s

/-- `deleteSelected` from `useRecEditor.ts`. -/
def deleteSelected (s : EditorState) : EditorState :=
  if s.selectedIds = ∅ then s
  else
    commitEvents (fun current =>
      let next := current.filter (fun e => e.id ∉ s.selectedIds)
      if next.length = current.length then none
      else some { next := next, selectionOverride := some ∅ })
      { resetAnchor := true, trackHistory := true } s

/-- The insertable templates accepted by `insertEvents`
(`Omit<EditorEvent, 'id' | 'time' | 'delay'> & Partial<Pick<EditorEvent, 'delay'>>`). -/
structure InsertTemplate where
  message : Nat
  paramL : Nat
  paramH : Nat
  hwnd : Nat
  delay : Option JSNum
deriving DecidableEq, Repr

/-- `insertEvents` from `useRecEditor.ts`: insert the templates at a
clamped index.  Each inserted event gets the fresh id
`"new-${Date.now()}-${i}-${Math.random()}"`; the nondeterministic
`Date.now()`/`Math.random()` samples for index `i` are supplied by
`oracle i`.  The first inserted event's delay is `delayTotal`, later
ones keep their own (`?? 0`). -/
def insertEvents (index : Nat) (newEvents : List InsertTemplate) (delayTotal : JSNum)
    (oracle : Nat → Nat × Nat) (s : EditorState) : EditorState :=
  commitEvents (fun current =>
    let clampedIndex := max 0 (min index current.length)
    let eventsToAdd := mapWithIndex (fun i e =>
      { id := .fresh (oracle i).1 i (oracle i).2,
        message := e.message, paramL := e.paramL, paramH := e.paramH,
        delay := if i = 0 then delayTotal else e.delay.getD (.finite 0),
        time := 0, hwnd := e.hwnd }) 0 newEvents
    some { next := current.take clampedIndex ++ eventsToAdd ++ current.drop clampedIndex,
           selectionOverride := none })
    { resetAnchor := false, trackHistory := true } s

/-- `mergeFile` from `useRecEditor.ts`: parse the new bytes and append
them (`insertEvents` at `events.length`) with entry delay 0; on parse
failure only `error`/`loading` change. -/
def mergeFile (bytes : List Nat) (oracle : Nat → Nat × Nat) (s : EditorState) : EditorState :=
  let s0 := { s with error := none, loading := true }
  match parseRec bytes with
  | .error e => { s0 with error := some e, loading := false }
  | .ok parsed =>
    let newEvents := (createEditorEvents parsed.events).map (fun e =>
      ({ message := e.message, paramL := e.paramL, paramH := e.paramH,
         hwnd := e.hwnd, delay := some e.delay } : InsertTemplate))
    { insertEvents s.events.length newEvents (.finite 0) oracle s0 with loading := false }

/-- `undo` from `useRecEditor.ts`: with empty history this is a no-op;
otherwise pop the most recent snapshot, push the current sequence onto
the (bounded) redo stack, install the normalized snapshot, clear the
selection and mark dirty. -/
def undo (s : EditorState) : EditorState :=
  match s.history.getLast? with
  | none => s
  | some snapshot =>
    { s with
      history := s.history.dropLast,
      future := capPush s.future s.events,
      events := recomputeTimeline snapshot,
      selectedIds := ∅, selectionAnchor := none, isDirty := true }

/-- `redo` from `useRecEditor.ts`: the mirror of `undo` using the redo
stack, pushing onto history instead. -/
def redo (s : EditorState) : EditorState :=
  match s.future.getLast? with
  | none => s
  | some snapshot =>
    { s with
      future := s.future.dropLast,
      history := capPush s.history s.events,
      events := recomputeTimeline snapshot,
      selectedIds := ∅, selectionAnchor := none, isDirty := true }

/-- `n` successive `undo` calls. -/
def undoN : Nat → EditorState → EditorState
  | 0, s => s
  | n + 1, s => undoN n (undo s)

/-- `n` successive `redo` calls. -/
def redoN : Nat → EditorState → EditorState
  | 0, s => s
  | n + 1, s => redoN n (redo s)

/-- The history-tracked mutations of the store (each routes through
`commitEvents` with history tracking on). -/
inductive EditOp where
  | setDelay (id : EventId) (value : JSNum)
  | remove (id : EventId)
  | insert (index : Nat) (templates : List InsertTemplate) (delayTotal : JSNum)
      (oracle : Nat → Nat × Nat)
  | applyDelay (value : JSNum)
  | addDelay (delta : JSNum)
  | clampSmall (threshold : JSNum)
  | deleteSel

/-- Apply one mutation. -/
def applyEdit : EditOp → EditorState → EditorState
  | .setDelay id value, s => updateDelay id value s
  | .remove id, s => removeEvent id s
  | .insert index templates delayTotal oracle, s =>
      insertEvents index templates delayTotal oracle s
  | .applyDelay value, s => applyDelayToSelection value s
  | .addDelay delta, s => addDelayToSelection delta s
  | .clampSmall threshold, s => clampSmallDelays threshold s
  | .deleteSel, s => deleteSelected s

/-- Apply a list of mutations in order. -/
def applyEdits (ops : List EditOp) (s : EditorState) : EditorState :=
  ops.foldl (fun acc op => applyEdit op acc) s

/-- Every operation exposed by the store (mutations plus load/merge,
reset, undo/redo and the selection operations). -/
inductive StoreAction where
  | edit (op : EditOp)
  | load (fileName : String) (bytes : List Nat)
  | merge (bytes : List Nat) (oracle : Nat → Nat × Nat)
  | reset
  | undoA
  | redoA
  | toggle (id : EventId) (index : Nat) (shift meta : Bool)
  | selectAllA
  | clearSel

/-- Apply one store operation. -/
def applyAction : StoreAction → EditorState → EditorState
  | .edit op, s => applyEdit op s
  | .load fileName bytes, s => loadFile fileName bytes s
  | .merge bytes oracle, s => mergeFile bytes oracle s
  | .reset, s => resetChanges s
  | .undoA, s => undo s
  | .redoA, s => redo s
  | .toggle id index shift meta, s => toggleSelection id index shift meta s
  | .selectAllA, s => selectAll s
  | .clearSel, s => clearSelection s

/-! ## Basic byte-level lemmas -/

theorem getD_drop (b : List Nat) (off j : Nat) :
    (b.drop off).getD j 0 = b.getD (off + j) 0 := by
  induction b generalizing off with
  | nil => simp
  | cons x t ih =>
    cases off with
    | zero => simp
    | succ o =>
      have h : o + 1 + j = o + j + 1 := by omega
      rw [h]
      exact ih o

theorem getD_lt_256 (b : List Nat) (i : Nat) (hb : ∀ x ∈ b, x < 256) :
    b.getD i 0 < 256 := by
  induction b generalizing i with
  | nil => simp
  | cons x t ih =>
    cases i with
    | zero => exact hb x (by simp)
    | succ j =>
      exact ih j (fun y hy => hb y (by simp [hy]))

theorem getUint32_lt (b : List Nat) (off : Nat) (hb : ∀ x ∈ b, x < 256) :
    getUint32 b off < UINT32_MAX := by
  have h0 := getD_lt_256 b off hb
  have h1 := getD_lt_256 b (off + 1) hb
  have h2 := getD_lt_256 b (off + 2) hb
  have h3 := getD_lt_256 b (off + 3) hb
  simp only [getUint32, UINT32_MAX]
  omega

theorem take4_eq_putUint32 (l : List Nat) (hl : 4 ≤ l.length)
    (hb : ∀ x ∈ l, x < 256) : l.take 4 = putUint32 (getUint32 l 0) := by
  match l with
  | [] => simp at hl
  | [_] => simp at hl
  | [_, _] => simp at hl
  | [_, _, _] => simp at hl
  | a :: b :: c :: d :: rest =>
    have ha : a < 256 := hb a (by simp)
    have hbb : b < 256 := hb b (by simp)
    have hc : c < 256 := hb c (by simp)
    have hd : d < 256 := hb d (by simp)
    have hX : getUint32 (a :: b :: c :: d :: rest) 0 =
        a + 256 * b + 65536 * c + 16777216 * d := rfl
    show [a, b, c, d] = putUint32 (getUint32 (a :: b :: c :: d :: rest) 0)
    rw [hX]
    simp only [putUint32, List.cons.injEq, and_true]
    omega

theorem take4_drop_eq_putUint32 (b : List Nat) (off : Nat)
    (h : off + 4 ≤ b.length) (hb : ∀ x ∈ b, x < 256) :
    (b.drop off).take 4 = putUint32 (getUint32 b off) := by
  have hg : getUint32 b off = getUint32 (b.drop off) 0 := by
    simp [getUint32, getD_drop]
  rw [hg]
  refine take4_eq_putUint32 _ ?_ ?_
  · simp only [List.length_drop]; omega
  · intro x hx
    exact hb x (List.drop_subset _ _ hx)

theorem putUint32_length (n : Nat) : (putUint32 n).length = 4 := rfl

theorem encodeRecord_length (e : EncodableEvent) (a : Nat) :
    (encodeRecord e a).length = 20 := rfl

/-! ## `toUint32` and `diffUint32` arithmetic -/

theorem toUint32_natCast (n : ℕ) : toUint32 (.finite (n : ℚ)) = n % UINT32_MAX := by
  simp only [toUint32, jsTrunc, jsRem, Rat.num_natCast, Rat.den_natCast,
    Nat.cast_one, Int.tdiv_one, UINT32_MAX]
  have hn : ¬((n : ℤ) < 0) := by omega
  rw [if_neg hn]
  omega

theorem toUint32_natCast_of_lt (n : ℕ) (h : n < UINT32_MAX) :
    toUint32 (.finite (n : ℚ)) = n := by
  rw [toUint32_natCast, Nat.mod_eq_of_lt h]

theorem toUint32_lt (v : JSNum) : toUint32 v < UINT32_MAX := by
  cases v with
  | finite q =>
    show ((jsRem (jsTrunc q) UINT32_MAX + (UINT32_MAX : ℤ)) % (UINT32_MAX : ℤ)).toNat <
      UINT32_MAX
    generalize jsRem (jsTrunc q) UINT32_MAX = x
    have h2 := Int.emod_nonneg (x + (UINT32_MAX : ℤ))
      (by simp [UINT32_MAX] : ((UINT32_MAX : ℕ) : ℤ) ≠ 0)
    have h3 := Int.emod_lt_of_pos (x + (UINT32_MAX : ℤ))
      (by simp [UINT32_MAX] : (0 : ℤ) < ((UINT32_MAX : ℕ) : ℤ))
    simp only [UINT32_MAX] at *
    omega
  | nan => decide
  | posInf => decide
  | negInf => decide

theorem diffUint32_lt (c p : Nat) : diffUint32 c p < UINT32_MAX := by
  simp only [diffUint32, UINT32_MAX]
  omega

theorem abs_reconstruct (c p : Nat) (hc : c < UINT32_MAX) (hp : p < UINT32_MAX) :
    (p + diffUint32 c p) % UINT32_MAX = c := by
  simp only [diffUint32, UINT32_MAX] at *
  omega

/-! ## Claim C9: malformed length and empty buffer -/

theorem parseRec_error_of_not_mult (b : List Nat) (h : b.length % 20 ≠ 0) :
    parseRec b = .error ("Unexpected .rec size: " ++ toString b.length ++
      " bytes is not a multiple of " ++ toString RECORD_BYTE_LENGTH ++ ".") := by
  have hne : b.length ≠ 0 := by
    intro h0
    exact h (by simp [h0])
  simp only [parseRec, RECORD_BYTE_LENGTH]
  rw [if_neg hne, if_pos h]

/-- C9: decoding a byte buffer whose length is not an exact multiple of
20 fails with the malformed-size error naming the invalid length (the
decoder is a pure function: no records are consumed on failure), while
the empty buffer decodes to an empty event sequence with `baseTime = 0`. -/
theorem decode_malformed_length_and_empty :
    (∀ b : List Nat, b.length % 20 ≠ 0 →
      parseRec b = .error ("Unexpected .rec size: " ++ toString b.length ++
        " bytes is not a multiple of " ++ toString RECORD_BYTE_LENGTH ++ ".")) ∧
    parseRec [] = .ok { events := [], baseTime := 0, hwnds := [], duration := 0 } := by
  constructor
  · intro b hb
    exact parseRec_error_of_not_mult b hb
  · rfl

theorem decode_malformed_length_and_empty_witness :
    (7 : Nat) % 20 ≠ 0 ∧
      parseRec [0, 1, 2, 3, 4, 5, 6] =
        .error "Unexpected .rec size: 7 bytes is not a multiple of 20." :=
  ⟨by decide, decode_malformed_length_and_empty.1 [0, 1, 2, 3, 4, 5, 6] (by decide)⟩

/-! ## Sanitization arithmetic -/

theorem jsRoundQ_natCast (n : ℕ) : jsRoundQ (n : ℚ) = n := by
  simp only [jsRoundQ, Rat.num_natCast, Rat.den_natCast, Nat.cast_one, mul_one]
  omega

theorem sanitizeDelay_le (v : JSNum) : sanitizeDelay v ≤ UINT32_MAX - 1 := by
  cases v with
  | finite q =>
    simp only [sanitizeDelay]
    split
    · simp [UINT32_MAX]
    · exact min_le_right _ _
  | nan => simp [sanitizeDelay]
  | posInf => simp [sanitizeDelay]
  | negInf => simp [sanitizeDelay]

theorem sanitizeDelay_natCast (n : ℕ) (h : n ≤ UINT32_MAX - 1) :
    sanitizeDelay (.finite (n : ℚ)) = n := by
  simp only [sanitizeDelay, jsRoundQ_natCast]
  rw [if_neg (not_lt.mpr (by positivity : (0 : ℚ) ≤ (n : ℚ)))]
  simp only [Int.toNat_natCast]
  omega

/-! ## Claim C10: normalizer idempotence -/

theorem recomputeRest_idem (l : List EditorEvent) (elapsed : Nat) :
    recomputeRest elapsed (recomputeRest elapsed l) = recomputeRest elapsed l := by
  induction l generalizing elapsed with
  | nil => rfl
  | cons e rest ih =>
    have hd := sanitizeDelay_natCast (sanitizeDelay e.delay) (sanitizeDelay_le e.delay)
    simp only [recomputeRest, hd, List.cons.injEq]
    exact ⟨trivial, ih _⟩

theorem recompute_idem (l : List EditorEvent) :
    recomputeTimeline (recomputeTimeline l) = recomputeTimeline l := by
  cases l with
  | nil => rfl
  | cons e rest =>
    simp only [recomputeTimeline, List.cons.injEq]
    exact ⟨trivial, recomputeRest_idem rest 0⟩

/-- C10: the timeline normalizer is idempotent — for every event list,
applying `recomputeTimeline` to its own output yields the same list
again (sanitization, the forced zero delay/time of the first element
and the running-sum times are all fixed points on an already-normalized
sequence), so re-normalizing snapshots during undo/redo never changes
them. -/
theorem normalizer_idempotent (l : List EditorEvent) :
    recomputeTimeline (recomputeTimeline l) = recomputeTimeline l :=
  recompute_idem l

/-! ## Claim C1: codec round-trip -/

theorem take_add_drop (b : List Nat) (off m n : Nat) :
    (b.drop off).take (m + n) = (b.drop off).take m ++ (b.drop (off + m)).take n := by
  rw [List.take_add]
  congr 1
  rw [List.drop_drop]

theorem drop_take20 (b : List Nat) (off : Nat) (h : off + 20 ≤ b.length)
    (hb : ∀ x ∈ b, x < 256) :
    (b.drop off).take 20 =
      putUint32 (getUint32 b off) ++ putUint32 (getUint32 b (off + 4)) ++
        putUint32 (getUint32 b (off + 8)) ++ putUint32 (getUint32 b (off + 12)) ++
        putUint32 (getUint32 b (off + 16)) := by
  have t0 := take4_drop_eq_putUint32 b off (by omega) hb
  have t4 := take4_drop_eq_putUint32 b (off + 4) (by omega) hb
  have t8 := take4_drop_eq_putUint32 b (off + 8) (by omega) hb
  have t12 := take4_drop_eq_putUint32 b (off + 12) (by omega) hb
  have t16 := take4_drop_eq_putUint32 b (off + 16) (by omega) hb
  have h20 : (b.drop off).take 20 = (b.drop off).take 16 ++ (b.drop (off + 16)).take 4 :=
    take_add_drop b off 16 4
  have h16 : (b.drop off).take 16 = (b.drop off).take 12 ++ (b.drop (off + 12)).take 4 :=
    take_add_drop b off 12 4
  have h12 : (b.drop off).take 12 = (b.drop off).take 8 ++ (b.drop (off + 8)).take 4 :=
    take_add_drop b off 8 4
  have h8 : (b.drop off).take 8 = (b.drop off).take 4 ++ (b.drop (off + 4)).take 4 :=
    take_add_drop b off 4 4
  simp only [h20, h16, h12, h8, t0, t4, t8, t12, t16]

theorem encode_parse_loop (b : List Nat) (hb : ∀ x ∈ b, x < 256) :
    ∀ (k index prevAbs prevTime : Nat),
      (index + k) * 20 ≤ b.length → prevAbs < UINT32_MAX →
      encodeFrom (cloneAsEncodable (parseFrom b k index prevAbs prevTime)) prevAbs =
        (b.drop (index * 20)).take (k * 20) := by
  intro k
  induction k with
  | zero =>
    intro index prevAbs prevTime _ _
    simp [parseFrom, cloneAsEncodable, encodeFrom]
  | succ k ih =>
    intro index prevAbs prevTime hlen hprev
    have hlen' : index * 20 + 20 ≤ b.length := by omega
    have hlen2 : ((index + 1) + k) * 20 ≤ b.length := by omega
    have habs : getUint32 b (index * 20 + 12) < UINT32_MAX := getUint32_lt b _ hb
    have hg0 := getUint32_lt b (index * 20) hb
    have hg4 := getUint32_lt b (index * 20 + 4) hb
    have hg8 := getUint32_lt b (index * 20 + 8) hb
    have hg16 := getUint32_lt b (index * 20 + 16) hb
    have hd := diffUint32_lt (getUint32 b (index * 20 + 12)) prevAbs
    show encodeRecord
        { message := getUint32 b (index * 20), paramL := getUint32 b (index * 20 + 4),
          paramH := getUint32 b (index * 20 + 8),
          delay := .finite ((diffUint32 (getUint32 b (index * 20 + 12)) prevAbs : ℕ) : ℚ),
          hwnd := getUint32 b (index * 20 + 16) }
        ((prevAbs + max 0 (toUint32 (.finite
          ((diffUint32 (getUint32 b (index * 20 + 12)) prevAbs : ℕ) : ℚ)))) % UINT32_MAX) ++
      encodeFrom (cloneAsEncodable (parseFrom b k (index + 1)
        (getUint32 b (index * 20 + 12))
        (prevTime + diffUint32 (getUint32 b (index * 20 + 12)) prevAbs)))
        ((prevAbs + max 0 (toUint32 (.finite
          ((diffUint32 (getUint32 b (index * 20 + 12)) prevAbs : ℕ) : ℚ)))) % UINT32_MAX) =
      (b.drop (index * 20)).take ((k + 1) * 20)
    rw [toUint32_natCast_of_lt _ hd, Nat.zero_max, abs_reconstruct _ _ habs hprev]
    rw [ih (index + 1) (getUint32 b (index * 20 + 12))
      (prevTime + diffUint32 (getUint32 b (index * 20 + 12)) prevAbs) hlen2 habs]
    rw [encodeRecord, toUint32_natCast_of_lt _ hg0, toUint32_natCast_of_lt _ hg4,
      toUint32_natCast_of_lt _ hg8, toUint32_natCast_of_lt _ hg16]
    rw [← drop_take20 b (index * 20) hlen' hb]
    rw [show (k + 1) * 20 = 20 + k * 20 from by ring,
      take_add_drop b (index * 20) 20 (k * 20),
      show index * 20 + 20 = (index + 1) * 20 from by ring]

theorem drop_take20_zero (b : List Nat) (h : 20 ≤ b.length) (hb : ∀ x ∈ b, x < 256) :
    b.take 20 =
      putUint32 (getUint32 b 0) ++ putUint32 (getUint32 b 4) ++ putUint32 (getUint32 b 8) ++
        putUint32 (getUint32 b 12) ++ putUint32 (getUint32 b 16) := by
  have h0 := drop_take20 b 0 (by omega) hb
  simpa using h0

theorem parseRec_ok_form (b : List Nat) (hz : b.length ≠ 0)
    (hm : ¬(b.length % RECORD_BYTE_LENGTH ≠ 0)) :
    ∃ hwnds duration, parseRec b = .ok
      {
        events := {
          message := getUint32 b 0, paramL := getUint32 b UINT32_SIZE,
          paramH := getUint32 b (UINT32_SIZE * 2), time := 0, delay := 0,
          hwnd := getUint32 b (UINT32_SIZE * 4) } ::
          parseFrom b (b.length / RECORD_BYTE_LENGTH - 1) 1 (getUint32 b (UINT32_SIZE * 3)) 0,
        baseTime := getUint32 b (UINT32_SIZE * 3), hwnds := hwnds, duration := duration } := by
  simp only [parseRec, if_neg hz, if_neg hm]
  exact ⟨_, _, rfl⟩

/-- C1: for every byte buffer whose length is a multiple of 20 (bytes
being values below 256), decoding succeeds and re-encoding the decoded
events with the decoded `baseTime` reproduces the original buffer
exactly: `Encode(Decode(b).events, Decode(b).baseTime) = b`. -/
theorem decode_encode_roundtrip (b : List Nat) (hb : ∀ x ∈ b, x < 256)
    (hlen : b.length % 20 = 0) :
    ∃ r : ParseResult, parseRec b = .ok r ∧
      encodeRec (cloneAsEncodable r.events)
        { baseTime := some (.finite (r.baseTime : ℚ)) } = b := by
  by_cases hz : b.length = 0
  · have hbnil : b = [] := List.length_eq_zero.mp hz
    subst hbnil
    exact ⟨_, rfl, rfl⟩
  · have hge : 20 ≤ b.length := by omega
    obtain ⟨H, D, hform⟩ := parseRec_ok_form b hz
      (by simp only [RECORD_BYTE_LENGTH]; omega)
    refine ⟨_, hform, ?_⟩
    have hb12 := getUint32_lt b 12 hb
    show encodeRecord
        {
          message := getUint32 b 0, paramL := getUint32 b 4, paramH := getUint32 b 8,
          delay := .finite ((0 : ℕ) : ℚ), hwnd := getUint32 b 16 }
        (toUint32 (.finite ((getUint32 b 12 : ℕ) : ℚ))) ++
      encodeFrom (cloneAsEncodable (parseFrom b (b.length / 20 - 1) 1 (getUint32 b 12) 0))
        (toUint32 (.finite ((getUint32 b 12 : ℕ) : ℚ))) = b
    rw [toUint32_natCast_of_lt _ hb12]
    rw [encode_parse_loop b hb (b.length / 20 - 1) 1 (getUint32 b 12) 0 (by omega) hb12]
    rw [encodeRecord, toUint32_natCast_of_lt _ (getUint32_lt b 0 hb),
      toUint32_natCast_of_lt _ (getUint32_lt b 4 hb),
      toUint32_natCast_of_lt _ (getUint32_lt b 8 hb),
      toUint32_natCast_of_lt _ (getUint32_lt b 16 hb)]
    rw [← drop_take20_zero b hge hb]
    rw [show (1 : ℕ) * 20 = 20 from by norm_num,
      show (b.length / 20 - 1) * 20 = b.length - 20 from by omega]
    rw [show b.length - 20 = (b.drop 20).length from by simp [List.length_drop],
      List.take_length, List.take_append_drop]

/-! ## Claim C2: the absolute-timestamp recurrence of `encodeRec` -/

/-- The absolute timestamp written for the record at position `i` of
the `index > 0` encoding loop started with running timestamp `a0`. -/
def nthAbs (a0 : Nat) : List EncodableEvent → Nat → Nat
  | [], _ => 0
  | e :: _, 0 => (a0 + max 0 (toUint32 e.delay)) % UINT32_MAX
  | e :: rest, i + 1 => nthAbs ((a0 + max 0 (toUint32 e.delay)) % UINT32_MAX) rest i

theorem getUint32_record_abs (e : EncodableEvent) (a : Nat) (rest : List Nat)
    (h : a < UINT32_MAX) : getUint32 (encodeRecord e a ++ rest) 12 = a := by
  show a % 256 + 256 * (a / 256 % 256) + 65536 * (a / 65536 % 256) +
    16777216 * (a / 16777216 % 256) = a
  simp only [UINT32_MAX] at h
  omega

theorem getUint32_skip_record (e : EncodableEvent) (a : Nat) (rest : List Nat) (off : Nat) :
    getUint32 (encodeRecord e a ++ rest) (off + 20) = getUint32 rest off := rfl

theorem encodeFrom_nthAbs (rest : List EncodableEvent) :
    ∀ (a0 : Nat), a0 < UINT32_MAX → ∀ (i : Nat), i < rest.length →
      getUint32 (encodeFrom rest a0) (i * 20 + 12) = nthAbs a0 rest i := by
  induction rest with
  | nil => intro a0 _ i hi; simp at hi
  | cons e rest' ih =>
    intro a0 ha0 i hi
    have ha1 : (a0 + max 0 (toUint32 e.delay)) % UINT32_MAX < UINT32_MAX :=
      Nat.mod_lt _ (by simp [UINT32_MAX])
    cases i with
    | zero =>
      show getUint32 (encodeRecord e ((a0 + max 0 (toUint32 e.delay)) % UINT32_MAX) ++
        encodeFrom rest' ((a0 + max 0 (toUint32 e.delay)) % UINT32_MAX)) (0 * 20 + 12) =
        nthAbs a0 (e :: rest') 0
      rw [show 0 * 20 + 12 = 12 from by ring]
      exact getUint32_record_abs _ _ _ ha1
    | succ j =>
      show getUint32 (encodeRecord e ((a0 + max 0 (toUint32 e.delay)) % UINT32_MAX) ++
        encodeFrom rest' ((a0 + max 0 (toUint32 e.delay)) % UINT32_MAX)) ((j + 1) * 20 + 12) =
        nthAbs a0 (e :: rest') (j + 1)
      rw [show (j + 1) * 20 + 12 = j * 20 + 12 + 20 from by ring, getUint32_skip_record]
      exact ih _ ha1 j (by simpa using hi)

theorem nthAbs_step (rest : List EncodableEvent) :
    ∀ (a0 i : Nat) (h : i < rest.length),
      nthAbs a0 rest i =
        ((if i = 0 then a0 else nthAbs a0 rest (i - 1)) +
          max 0 (toUint32 (rest.get ⟨i, h⟩).delay)) % UINT32_MAX := by
  induction rest with
  | nil => intro a0 i h; simp at h
  | cons e rest' ih =>
    intro a0 i h
    cases i with
    | zero => rfl
    | succ j =>
      cases rest' with
      | nil => simp at h
      | cons e2 r2 =>
        have hj : j < (e2 :: r2).length := by simpa using h
        have hstep := ih ((a0 + max 0 (toUint32 e.delay)) % UINT32_MAX) j hj
        cases j with
        | zero => simp [nthAbs]
        | succ m =>
          simpa [nthAbs] using hstep

/-- C2 (amended): during `encodeRec`, for every record after the first,
the written absolute timestamp equals
`(previous absolute timestamp + max(0, toUint32(delay))) mod 2^32`:
non-finite delays become 0, but any other delay (negative ones
included) is truncated and reduced modulo `2^32` by `toUint32` — a
negative delay therefore wraps to a large positive increment instead
of being sanitized to 0 (the `max` with 0 is a no-op on the
`toUint32` result). -/
theorem encode_abs_timestamp_recurrence (e0 : EncodableEvent) (rest : List EncodableEvent)
    (options : EncodeOptions) (i : Nat) (h : i < rest.length) :
    getUint32 (encodeRec (e0 :: rest) options) ((i + 1) * 20 + 12) =
      (getUint32 (encodeRec (e0 :: rest) options) (i * 20 + 12) +
        max 0 (toUint32 (rest.get ⟨i, h⟩).delay)) % UINT32_MAX := by
  have hbt := toUint32_lt (options.baseTime.getD (.finite 0))
  have hprev : getUint32 (encodeRecord e0 (toUint32 (options.baseTime.getD (.finite 0))) ++
      encodeFrom rest (toUint32 (options.baseTime.getD (.finite 0)))) (i * 20 + 12) =
      if i = 0 then toUint32 (options.baseTime.getD (.finite 0))
      else nthAbs (toUint32 (options.baseTime.getD (.finite 0))) rest (i - 1) := by
    cases i with
    | zero =>
      rw [if_pos rfl, show 0 * 20 + 12 = 12 from by ring]
      exact getUint32_record_abs _ _ _ hbt
    | succ j =>
      rw [if_neg (Nat.succ_ne_zero j),
        show (j + 1) * 20 + 12 = j * 20 + 12 + 20 from by ring, getUint32_skip_record,
        Nat.add_sub_cancel]
      exact encodeFrom_nthAbs rest _ hbt j (by omega)
  show getUint32 (encodeRecord e0 (toUint32 (options.baseTime.getD (.finite 0))) ++
      encodeFrom rest (toUint32 (options.baseTime.getD (.finite 0)))) ((i + 1) * 20 + 12) =
    (getUint32 (encodeRecord e0 (toUint32 (options.baseTime.getD (.finite 0))) ++
      encodeFrom rest (toUint32 (options.baseTime.getD (.finite 0)))) (i * 20 + 12) +
      max 0 (toUint32 (rest.get ⟨i, h⟩).delay)) % UINT32_MAX
  rw [show (i + 1) * 20 + 12 = i * 20 + 12 + 20 from by ring, getUint32_skip_record,
    encodeFrom_nthAbs rest _ hbt i h, hprev, nthAbs_step rest _ i h]

theorem encode_abs_timestamp_recurrence_witness :
    (0 : Nat) < 1 ∧
    getUint32 (encodeRec
      [{ message := 0, paramL := 0, paramH := 0, delay := .finite 0, hwnd := 0 },
       { message := 0, paramL := 0, paramH := 0, delay := .finite (-5), hwnd := 0 }]
      { baseTime := some (.finite 0) }) 32 =
      (getUint32 (encodeRec
        [{ message := 0, paramL := 0, paramH := 0, delay := .finite 0, hwnd := 0 },
         { message := 0, paramL := 0, paramH := 0, delay := .finite (-5), hwnd := 0 }]
        { baseTime := some (.finite 0) }) 12 +
        max 0 (toUint32 (.finite (-5)))) % UINT32_MAX :=
  ⟨by decide, encode_abs_timestamp_recurrence
    { message := 0, paramL := 0, paramH := 0, delay := .finite 0, hwnd := 0 }
    [{ message := 0, paramL := 0, paramH := 0, delay := .finite (-5), hwnd := 0 }]
    { baseTime := some (.finite 0) } 0 (by decide)⟩

/-- C2 counterexample: with baseTime 0 and a second event whose delay
is `-5`, the claim as stated predicts the written absolute timestamp
`(0 + sanitize(-5)) mod 2^32 = 0`, but the encoder writes
`2^32 - 5 = 4294967291`: negative delays are not sanitized to 0 before
accumulation. -/
theorem encode_negative_delay_not_sanitized :
    getUint32 (encodeRec
      [{ message := 0, paramL := 0, paramH := 0, delay := .finite 0, hwnd := 0 },
       { message := 0, paramL := 0, paramH := 0, delay := .finite (-5), hwnd := 0 }]
      { baseTime := some (.finite 0) }) 32 = 4294967291 ∧
    (getUint32 (encodeRec
      [{ message := 0, paramL := 0, paramH := 0, delay := .finite 0, hwnd := 0 },
       { message := 0, paramL := 0, paramH := 0, delay := .finite (-5), hwnd := 0 }]
      { baseTime := some (.finite 0) }) 12 +
      sanitizeDelay (.finite (-5))) % UINT32_MAX = 0 ∧
    (4294967291 : Nat) ≠ 0 := by
  refine ⟨by decide, by decide, by decide⟩

theorem decode_encode_roundtrip_witness :
    (∀ x ∈ [0,2,0,0, 1,0,0,0, 2,0,0,0, 240,255,255,255, 7,0,0,0,
            0,2,0,0, 3,0,0,0, 4,0,0,0, 16,0,0,0, 7,0,0,0], x < 256) ∧
    ([0,2,0,0, 1,0,0,0, 2,0,0,0, 240,255,255,255, 7,0,0,0,
      0,2,0,0, 3,0,0,0, 4,0,0,0, 16,0,0,0, 7,0,0,0] : List Nat).length % 20 = 0 ∧
    (∃ r : ParseResult,
      parseRec [0,2,0,0, 1,0,0,0, 2,0,0,0, 240,255,255,255, 7,0,0,0,
                0,2,0,0, 3,0,0,0, 4,0,0,0, 16,0,0,0, 7,0,0,0] = .ok r ∧
      encodeRec (cloneAsEncodable r.events) { baseTime := some (.finite (r.baseTime : ℚ)) } =
        [0,2,0,0, 1,0,0,0, 2,0,0,0, 240,255,255,255, 7,0,0,0,
         0,2,0,0, 3,0,0,0, 4,0,0,0, 16,0,0,0, 7,0,0,0]) :=
  ⟨by decide, by decide,
    decode_encode_roundtrip
      [0,2,0,0, 1,0,0,0, 2,0,0,0, 240,255,255,255, 7,0,0,0,
       0,2,0,0, 3,0,0,0, 4,0,0,0, 16,0,0,0, 7,0,0,0] (by decide) (by decide)⟩

/-! ## Claim C3: the timeline invariant -/

/-- Chained timeline: starting from accumulated time `t`, every event
carries a natural delay stored as a finite number, and its `time` is
the predecessor's time plus that delay. -/
def Chained : Nat → List EditorEvent → Prop
  | _, [] => True
  | t, e :: rest => (∃ d : ℕ, e.delay = JSNum.finite (d : ℚ) ∧ e.time = t + d) ∧
      Chained e.time rest

/-- The sequencing invariant of the claim: `time[0] = 0`, `delay[0] = 0`
and, for every later index, `time[i] = time[i-1] + delay[i]` with
`time[i-1] ≤ time[i]`. -/
def Normalized (l : List EditorEvent) : Prop :=
  (∀ h0 : 0 < l.length,
    (l.get ⟨0, h0⟩).delay = JSNum.finite 0 ∧ (l.get ⟨0, h0⟩).time = 0) ∧
  (∀ (i : Nat) (h : i + 1 < l.length), ∃ d : ℕ,
    (l.get ⟨i + 1, h⟩).delay = JSNum.finite (d : ℚ) ∧
    (l.get ⟨i + 1, h⟩).time = (l.get ⟨i, by omega⟩).time + d ∧
    (l.get ⟨i, by omega⟩).time ≤ (l.get ⟨i + 1, h⟩).time)

theorem chained_get (l : List EditorEvent) :
    ∀ (t : Nat), Chained t l → ∀ (i : Nat) (h : i < l.length),
      ∃ d : ℕ, (l.get ⟨i, h⟩).delay = JSNum.finite (d : ℚ) ∧
        (l.get ⟨i, h⟩).time =
          (if i = 0 then t else (l.get ⟨i - 1, by omega⟩).time) + d := by
  induction l with
  | nil => intro t _ i h; simp at h
  | cons e r ih =>
    intro t hc i h
    cases i with
    | zero =>
      obtain ⟨⟨d, hd, ht⟩, _⟩ := hc
      exact ⟨d, hd, by simpa using ht⟩
    | succ j =>
      obtain ⟨_, hcr⟩ := hc
      obtain ⟨d, hd, ht⟩ := ih e.time hcr j (by simpa using h)
      cases j with
      | zero =>
        refine ⟨d, hd, ?_⟩
        simpa using ht
      | succ m =>
        refine ⟨d, hd, ?_⟩
        simpa using ht

theorem recomputeRest_chained (l : List EditorEvent) :
    ∀ (elapsed : Nat), Chained elapsed (recomputeRest elapsed l) := by
  induction l with
  | nil => intro elapsed; trivial
  | cons e r ih =>
    intro elapsed
    exact ⟨⟨sanitizeDelay e.delay, rfl, rfl⟩, ih (elapsed + sanitizeDelay e.delay)⟩

theorem normalized_recompute (l : List EditorEvent) :
    Normalized (recomputeTimeline l) := by
  cases l with
  | nil =>
    exact ⟨fun h => absurd h (by simp [recomputeTimeline]), fun i h =>
      absurd h (by simp [recomputeTimeline])⟩
  | cons e r =>
    constructor
    · intro h0
      exact ⟨rfl, rfl⟩
    · intro i h
      have hc := recomputeRest_chained r 0
      have hi : i < (recomputeRest 0 r).length := by
        simpa [recomputeTimeline] using h
      obtain ⟨d, hd, ht⟩ := chained_get (recomputeRest 0 r) 0 hc i hi
      refine ⟨d, ?_, ?_, ?_⟩
      · simpa [recomputeTimeline] using hd
      · cases i with
        | zero => simpa [recomputeTimeline] using ht
        | succ m => simpa [recomputeTimeline] using ht
      · cases i with
        | zero =>
          have : (recomputeTimeline (e :: r)).get ⟨0 + 1, h⟩ =
              (recomputeRest 0 r).get ⟨0, hi⟩ := rfl
          rw [this]
          simp only [if_pos rfl] at ht
          simp [recomputeTimeline, ht]
        | succ m =>
          have h1 : (recomputeTimeline (e :: r)).get ⟨m + 1 + 1, h⟩ =
              (recomputeRest 0 r).get ⟨m + 1, hi⟩ := rfl
          have h2 : (recomputeTimeline (e :: r)).get ⟨m + 1, by omega⟩ =
              (recomputeRest 0 r).get ⟨m, by omega⟩ := rfl
          rw [h1, h2]
          simp only [if_neg (Nat.succ_ne_zero m)] at ht
          simp only [Nat.add_sub_cancel] at ht
          omega

theorem commitEvents_route (mutator : List EditorEvent → Option EventMutationResult)
    (options : CommitOptions) (s : EditorState) :
    (commitEvents mutator options s).events = s.events ∨
      ∃ l, (commitEvents mutator options s).events = recomputeTimeline l := by
  unfold commitEvents
  split
  · left
    split <;> rfl
  · right
    exact ⟨_, rfl⟩

theorem insertEvents_route (index : Nat) (newEvents : List InsertTemplate)
    (delayTotal : JSNum) (oracle : Nat → Nat × Nat) (s : EditorState) :
    (insertEvents index newEvents delayTotal oracle s).events = s.events ∨
      ∃ l, (insertEvents index newEvents delayTotal oracle s).events = recomputeTimeline l :=
  commitEvents_route _ _ s

theorem applyEdit_route (op : EditOp) (s : EditorState) :
    (applyEdit op s).events = s.events ∨
      ∃ l, (applyEdit op s).events = recomputeTimeline l := by
  cases op with
  | setDelay id value => exact commitEvents_route _ _ s
  | remove id => exact commitEvents_route _ _ s
  | insert index templates delayTotal oracle => exact commitEvents_route _ _ s
  | applyDelay value =>
    simp only [applyEdit, applyDelayToSelection]
    unfold applyToSelection
    split
    · exact Or.inl rfl
    · exact commitEvents_route _ _ s
  | addDelay delta =>
    simp only [applyEdit, addDelayToSelection]
    unfold applyToSelection
    split
    · exact Or.inl rfl
    · exact commitEvents_route _ _ s
  | clampSmall threshold =>
    simp only [applyEdit, clampSmallDelays]
    unfold applyToSelection
    split
    · exact Or.inl rfl
    · exact commitEvents_route _ _ s
  | deleteSel =>
    simp only [applyEdit]
    unfold deleteSelected
    split
    · exact Or.inl rfl
    · exact commitEvents_route _ _ s

theorem applyAction_route (a : StoreAction) (s : EditorState) :
    (applyAction a s).events = s.events ∨
      ∃ l, (applyAction a s).events = recomputeTimeline l := by
  cases a with
  | edit op => exact applyEdit_route op s
  | load fileName bytes =>
    simp only [applyAction]
    unfold loadFile
    split
    · exact Or.inl rfl
    · exact Or.inr ⟨_, rfl⟩
  | merge bytes oracle =>
    simp only [applyAction]
    unfold mergeFile
    split
    · exact Or.inl rfl
    · exact insertEvents_route _ _ _ _ _
  | reset =>
    simp only [applyAction]
    unfold resetChanges
    split
    · exact Or.inl rfl
    · exact Or.inr ⟨_, rfl⟩
  | undoA =>
    simp only [applyAction]
    unfold undo
    split
    · exact Or.inl rfl
    · exact Or.inr ⟨_, rfl⟩
  | redoA =>
    simp only [applyAction]
    unfold redo
    split
    · exact Or.inl rfl
    · exact Or.inr ⟨_, rfl⟩
  | toggle id index shift meta =>
    simp only [applyAction]
    unfold toggleSelection
    split <;> exact Or.inl rfl
  | selectAllA => exact Or.inl rfl
  | clearSel => exact Or.inl rfl

/-- C3: after every store operation (load, merge, delay edit, remove,
insert, the batch selection edits, reset, undo, redo — plus the pure
selection operations), the working sequence still satisfies the
timeline invariant `time[0] = 0 = delay[0]`, `time[i] = time[i-1] +
delay[i]` and `time[i-1] ≤ time[i]`; moreover every operation either
leaves the working sequence untouched or installs the output of the
normalizer `recomputeTimeline`. -/
theorem store_normalized_invariant :
    (∀ (s : EditorState) (a : StoreAction), Normalized s.events →
      Normalized ((applyAction a s).events)) ∧
    (∀ (s : EditorState) (a : StoreAction),
      (applyAction a s).events = s.events ∨
        ∃ l, (applyAction a s).events = recomputeTimeline l) := by
  constructor
  · intro s a hs
    rcases applyAction_route a s with h | ⟨l, hl⟩
    · rw [h]; exact hs
    · rw [hl]; exact normalized_recompute l
  · intro s a
    exact applyAction_route a s

/-- A store state used to instantiate theorems with hypotheses at
concrete inputs: one already-normalized loaded event. -/
def sampleEvent : EditorEvent :=
  {
    id := .loaded 0 0 1 2 3, message := 1, paramL := 2, paramH := 3,
    delay := .finite 0, time := 0, hwnd := 7 }

def sampleState : EditorState :=
  {
    events := [sampleEvent], initialEvents := [sampleEvent],
    baseTime := 4, fileName := some "sample.rec", loading := false, error := none,
    isDirty := false, selectedIds := ∅, selectionAnchor := none,
    history := [], future := [] }

theorem sampleState_normalized : Normalized sampleState.events := by
  constructor
  · intro h0
    exact ⟨rfl, rfl⟩
  · intro i h
    simp [sampleState] at h

theorem store_normalized_invariant_witness :
    Normalized ((applyAction (.edit (.setDelay (.loaded 0 0 1 2 3) (.finite 5)))
      sampleState).events) :=
  store_normalized_invariant.1 sampleState
    (.edit (.setDelay (.loaded 0 0 1 2 3) (.finite 5))) sampleState_normalized

/-! ## Claim C5: failure isolation of Load/Merge -/

theorem commitEvents_error (mutator : List EditorEvent → Option EventMutationResult)
    (options : CommitOptions) (s : EditorState) :
    (commitEvents mutator options s).error = s.error := by
  unfold commitEvents
  split
  · split <;> rfl
  · split <;> rfl

theorem applyEdit_error (op : EditOp) (s : EditorState) :
    (applyEdit op s).error = s.error := by
  cases op with
  | setDelay id value => exact commitEvents_error _ _ s
  | remove id => exact commitEvents_error _ _ s
  | insert index templates delayTotal oracle => exact commitEvents_error _ _ s
  | applyDelay value =>
    simp only [applyEdit, applyDelayToSelection]
    unfold applyToSelection
    split
    · rfl
    · exact commitEvents_error _ _ s
  | addDelay delta =>
    simp only [applyEdit, addDelayToSelection]
    unfold applyToSelection
    split
    · rfl
    · exact commitEvents_error _ _ s
  | clampSmall threshold =>
    simp only [applyEdit, clampSmallDelays]
    unfold applyToSelection
    split
    · rfl
    · exact commitEvents_error _ _ s
  | deleteSel =>
    simp only [applyEdit]
    unfold deleteSelected
    split
    · rfl
    · exact commitEvents_error _ _ s

/-- C5: when Load or Merge receives a buffer whose length is not a
multiple of the record size, the operation fails and leaves the
baseline, the working sequence, both history stacks, the selection,
the dirty flag and the file name unchanged (only the error/loading
flags move); and no routine edit or selection operation ever touches
the error channel. -/
theorem load_merge_failure_isolated :
    (∀ (s : EditorState) (name : String) (bytes : List Nat), bytes.length % 20 ≠ 0 →
      (loadFile name bytes s).events = s.events ∧
      (loadFile name bytes s).initialEvents = s.initialEvents ∧
      (loadFile name bytes s).baseTime = s.baseTime ∧
      (loadFile name bytes s).history = s.history ∧
      (loadFile name bytes s).future = s.future ∧
      (loadFile name bytes s).selectedIds = s.selectedIds ∧
      (loadFile name bytes s).isDirty = s.isDirty ∧
      (loadFile name bytes s).fileName = s.fileName) ∧
    (∀ (s : EditorState) (bytes : List Nat) (oracle : Nat → Nat × Nat),
      bytes.length % 20 ≠ 0 →
      (mergeFile bytes oracle s).events = s.events ∧
      (mergeFile bytes oracle s).initialEvents = s.initialEvents ∧
      (mergeFile bytes oracle s).baseTime = s.baseTime ∧
      (mergeFile bytes oracle s).history = s.history ∧
      (mergeFile bytes oracle s).future = s.future ∧
      (mergeFile bytes oracle s).selectedIds = s.selectedIds ∧
      (mergeFile bytes oracle s).isDirty = s.isDirty ∧
      (mergeFile bytes oracle s).fileName = s.fileName) ∧
    (∀ (s : EditorState) (op : EditOp), (applyEdit op s).error = s.error) ∧
    (∀ (s : EditorState) (id : EventId) (index : Nat) (shift meta : Bool),
      (toggleSelection id index shift meta s).error = s.error) ∧
    (∀ s : EditorState, (selectAll s).error = s.error) ∧
    (∀ s : EditorState, (clearSelection s).error = s.error) ∧
    (∀ s : EditorState, (undo s).error = s.error) ∧
    (∀ s : EditorState, (redo s).error = s.error) := by
  refine ⟨?_, ?_, fun s op => applyEdit_error op s, ?_, fun s => rfl, fun s => rfl, ?_, ?_⟩
  · intro s name bytes h
    unfold loadFile
    rw [parseRec_error_of_not_mult bytes h]
    exact ⟨rfl, rfl, rfl, rfl, rfl, rfl, rfl, rfl⟩
  · intro s bytes oracle h
    unfold mergeFile
    rw [parseRec_error_of_not_mult bytes h]
    exact ⟨rfl, rfl, rfl, rfl, rfl, rfl, rfl, rfl⟩
  · intro s id index shift meta
    unfold toggleSelection
    split <;> rfl
  · intro s
    unfold undo
    split <;> rfl
  · intro s
    unfold redo
    split <;> rfl

theorem load_merge_failure_isolated_witness :
    ([(1 : Nat)].length % 20 ≠ 0) ∧
      ((loadFile "bad.rec" [1] sampleState).events = sampleState.events ∧
       (loadFile "bad.rec" [1] sampleState).initialEvents = sampleState.initialEvents ∧
       (loadFile "bad.rec" [1] sampleState).baseTime = sampleState.baseTime ∧
       (loadFile "bad.rec" [1] sampleState).history = sampleState.history ∧
       (loadFile "bad.rec" [1] sampleState).future = sampleState.future ∧
       (loadFile "bad.rec" [1] sampleState).selectedIds = sampleState.selectedIds ∧
       (loadFile "bad.rec" [1] sampleState).isDirty = sampleState.isDirty ∧
       (loadFile "bad.rec" [1] sampleState).fileName = sampleState.fileName) :=
  ⟨by decide, load_merge_failure_isolated.1 sampleState "bad.rec" [1] (by decide)⟩

/-! ## Claim C6: SetDelay semantics -/

theorem recomputeRest_length (l : List EditorEvent) :
    ∀ elapsed, (recomputeRest elapsed l).length = l.length := by
  induction l with
  | nil => intro _; rfl
  | cons e r ih =>
    intro elapsed
    simp [recomputeRest, ih]

theorem recomputeTimeline_length (l : List EditorEvent) :
    (recomputeTimeline l).length = l.length := by
  cases l with
  | nil => rfl
  | cons e r => simp [recomputeTimeline, recomputeRest_length]

theorem recomputeRest_getD_delay (l : List EditorEvent) :
    ∀ (elapsed i : Nat), i < l.length →
      ((recomputeRest elapsed l).getD i default).delay =
        JSNum.finite ((sanitizeDelay ((l.getD i default).delay) : ℕ) : ℚ) := by
  induction l with
  | nil => intro _ i h; simp at h
  | cons e r ih =>
    intro elapsed i h
    cases i with
    | zero => rfl
    | succ j =>
      have hj : j < r.length := by simpa using h
      simpa [recomputeRest] using ih (elapsed + sanitizeDelay e.delay) j hj

theorem recompute_getD_delay (l : List EditorEvent) (i : Nat) (h : i < l.length) :
    ((recomputeTimeline l).getD i default).delay =
      if i = 0 then JSNum.finite 0
      else JSNum.finite ((sanitizeDelay ((l.getD i default).delay) : ℕ) : ℚ) := by
  cases l with
  | nil => simp at h
  | cons e r =>
    cases i with
    | zero => rfl
    | succ j =>
      have hj : j < r.length := by simpa using h
      rw [if_neg (Nat.succ_ne_zero j)]
      simpa [recomputeTimeline] using recomputeRest_getD_delay r 0 j hj

theorem map_flags_any_false {α β : Type} (f : α → β × Bool) (l : List α)
    (hall : ∀ e ∈ l, (f e).2 = false) : (l.map f).any (fun p => p.2) = false := by
  induction l with
  | nil => rfl
  | cons a r ih =>
    simp [hall a (by simp), ih (fun x hx => hall x (List.mem_cons_of_mem a hx))]

theorem map_flags_any_true {α β : Type} (f : α → β × Bool) (l : List α) (e : α)
    (he : e ∈ l) (hf : (f e).2 = true) : (l.map f).any (fun p => p.2) = true := by
  induction l with
  | nil => simp at he
  | cons a r ih =>
    rcases List.mem_cons.mp he with rfl | hmem
    · simp [hf]
    · simp [ih hmem]

theorem updateDelay_noop_of_absent (s : EditorState) (id : EventId) (v : JSNum)
    (h : ∀ e ∈ s.events, e.id ≠ id) : updateDelay id v s = s := by
  have hstep : (s.events.map (fun e =>
      if e.id ≠ id then (e, false)
      else if jsEq e.delay (.finite ((sanitizeDelay v : ℕ) : ℚ)) then (e, false)
      else ({ e with delay := .finite ((sanitizeDelay v : ℕ) : ℚ) }, true))).any
      (fun p => p.2) = false := by
    apply map_flags_any_false
    intro e he
    rw [if_pos (h e he)]
  simp only [updateDelay, commitEvents, hstep]
  simp

theorem updateDelay_noop_of_unchanged (s : EditorState) (id : EventId) (v : JSNum)
    (h : ∀ e ∈ s.events, e.id = id →
      jsEq e.delay (.finite ((sanitizeDelay v : ℕ) : ℚ)) = true) :
    updateDelay id v s = s := by
  have hstep : (s.events.map (fun e =>
      if e.id ≠ id then (e, false)
      else if jsEq e.delay (.finite ((sanitizeDelay v : ℕ) : ℚ)) then (e, false)
      else ({ e with delay := .finite ((sanitizeDelay v : ℕ) : ℚ) }, true))).any
      (fun p => p.2) = false := by
    apply map_flags_any_false
    intro e he
    by_cases hid : e.id ≠ id
    · rw [if_pos hid]
    · rw [if_neg hid, if_pos (h e he (not_not.mp hid))]
  simp only [updateDelay, commitEvents, hstep]
  simp

theorem updateDelay_changed (s : EditorState) (id : EventId) (v : JSNum) (i : Nat)
    (hi : i < s.events.length)
    (hid : (s.events.getD i default).id = id)
    (hch : jsEq ((s.events.getD i default).delay)
      (.finite ((sanitizeDelay v : ℕ) : ℚ)) = false) :
    ((updateDelay id v s).events.getD i default).delay =
      (if i = 0 then JSNum.finite 0
       else JSNum.finite ((sanitizeDelay v : ℕ) : ℚ)) ∧
    (updateDelay id v s).history = capPush s.history s.events ∧
    (updateDelay id v s).isDirty = true := by
  have hgetD : s.events.getD i default = s.events[i] := List.getD_eq_getElem s.events default hi
  rw [hgetD] at hid hch
  have hany : (s.events.map (fun e =>
      if e.id ≠ id then (e, false)
      else if jsEq e.delay (.finite ((sanitizeDelay v : ℕ) : ℚ)) then (e, false)
      else ({ e with delay := .finite ((sanitizeDelay v : ℕ) : ℚ) }, true))).any
      (fun p => p.2) = true := by
    apply map_flags_any_true _ _ (s.events[i]) (List.getElem_mem hi)
    rw [if_neg (not_not_intro hid), if_neg (by simp [hch])]
  simp only [updateDelay, commitEvents, hany, if_true]
  refine ⟨?_, trivial, trivial⟩
  have hlen2 : i < ((s.events.map (fun e =>
      if e.id ≠ id then (e, false)
      else if jsEq e.delay (.finite ((sanitizeDelay v : ℕ) : ℚ)) then (e, false)
      else ({ e with delay := .finite ((sanitizeDelay v : ℕ) : ℚ) }, true))).map
      (fun p => p.1)).length := by
    simpa using hi
  have hmapped : ((s.events.map (fun e =>
      if e.id ≠ id then (e, false)
      else if jsEq e.delay (.finite ((sanitizeDelay v : ℕ) : ℚ)) then (e, false)
      else ({ e with delay := .finite ((sanitizeDelay v : ℕ) : ℚ) }, true))).map
      (fun p => p.1)).getD i default =
      { s.events[i] with delay := .finite ((sanitizeDelay v : ℕ) : ℚ) } := by
    rw [List.getD_eq_getElem _ _ hlen2, List.getElem_map, List.getElem_map]
    rw [if_neg (not_not_intro hid), if_neg (by simp [hch])]
  rw [recompute_getD_delay _ i hlen2, hmapped]
  by_cases h0 : i = 0
  · rw [if_pos h0, if_pos h0]
  · rw [if_neg h0, if_neg h0,
      show ({ s.events[i] with
        delay := JSNum.finite ((sanitizeDelay v : ℕ) : ℚ) } : EditorEvent).delay =
        JSNum.finite ((sanitizeDelay v : ℕ) : ℚ) from rfl,
      sanitizeDelay_natCast _ (sanitizeDelay_le v)]

/-- C6 (amended): `SetDelay(id, value)` sanitizes the value (negative
or non-finite input yields 0, `1e20` clamps to `2^32 - 1`) and replaces
the matching event's delay when it differs; the commit re-runs the
normalizer, which forces the first event's delay back to 0, so the
sanitized value survives only at indices `i > 0` (at index 0 the
operation still pushes a history entry and sets the dirty flag while
the delay reads 0).  If the id is absent, or the sanitized value equals
the current delay, the whole operation is a no-op: the state — history
and dirty flag included — is unchanged. -/
theorem setDelay_semantics :
    (∀ (s : EditorState) (id : EventId) (v : JSNum),
      (∀ e ∈ s.events, e.id ≠ id) → updateDelay id v s = s) ∧
    (∀ (s : EditorState) (id : EventId) (v : JSNum),
      (∀ e ∈ s.events, e.id = id →
        jsEq e.delay (.finite ((sanitizeDelay v : ℕ) : ℚ)) = true) →
      updateDelay id v s = s) ∧
    (∀ (s : EditorState) (id : EventId) (v : JSNum) (i : Nat),
      i < s.events.length → (s.events.getD i default).id = id →
      jsEq ((s.events.getD i default).delay)
        (.finite ((sanitizeDelay v : ℕ) : ℚ)) = false →
      (((updateDelay id v s).events.getD i default).delay =
        (if i = 0 then JSNum.finite 0
         else JSNum.finite ((sanitizeDelay v : ℕ) : ℚ)) ∧
       (updateDelay id v s).history = capPush s.history s.events ∧
       (updateDelay id v s).isDirty = true)) ∧
    sanitizeDelay (.finite (-5)) = 0 ∧
    sanitizeDelay (.finite (10 ^ 20)) = 4294967295 :=
  ⟨updateDelay_noop_of_absent, updateDelay_noop_of_unchanged,
    fun s id v i h1 h2 h3 => updateDelay_changed s id v i h1 h2 h3,
    by decide, by decide⟩

/-- A two-event normalized store state. -/
def sampleEventB : EditorEvent :=
  {
    id := .loaded 1 5 1 2 3, message := 1, paramL := 2, paramH := 3,
    delay := .finite 5, time := 5, hwnd := 7 }

def sampleState2 : EditorState :=
  {
    events := [sampleEvent, sampleEventB],
    initialEvents := [sampleEvent, sampleEventB],
    baseTime := 4, fileName := some "sample.rec", loading := false, error := none,
    isDirty := false, selectedIds := ∅, selectionAnchor := none,
    history := [], future := [] }

theorem setDelay_semantics_witness :
    (1 < sampleState2.events.length ∧
     (sampleState2.events.getD 1 default).id = EventId.loaded 1 5 1 2 3 ∧
     jsEq ((sampleState2.events.getD 1 default).delay)
       (.finite ((sanitizeDelay (.finite (10 ^ 20)) : ℕ) : ℚ)) = false) ∧
    (((updateDelay (.loaded 1 5 1 2 3) (.finite (10 ^ 20))
        sampleState2).events.getD 1 default).delay =
      (if 1 = 0 then JSNum.finite 0
       else JSNum.finite ((sanitizeDelay (.finite (10 ^ 20)) : ℕ) : ℚ)) ∧
     (updateDelay (.loaded 1 5 1 2 3) (.finite (10 ^ 20)) sampleState2).history =
       capPush sampleState2.history sampleState2.events ∧
     (updateDelay (.loaded 1 5 1 2 3) (.finite (10 ^ 20)) sampleState2).isDirty = true) :=
  ⟨⟨by decide, by decide, by decide⟩,
    setDelay_semantics.2.2.1 sampleState2 (.loaded 1 5 1 2 3) (.finite (10 ^ 20)) 1
      (by decide) (by decide) (by decide)⟩

/-- C6 counterexample: on a single-event sequence,
`SetDelay(firstId, 1e20)` leaves the first event's delay at 0 — not at
`2^32 - 1` as the claim states — because the normalizer forces the
first event's delay to 0 after the replacement. -/
theorem setDelay_first_event_not_clamped :
    ((updateDelay (.loaded 0 0 1 2 3) (.finite (10 ^ 20))
        sampleState).events.getD 0 default).delay = JSNum.finite 0 ∧
    sanitizeDelay (.finite (10 ^ 20)) = 4294967295 ∧
    JSNum.finite 0 ≠ JSNum.finite ((4294967295 : ℕ) : ℚ) := by
  refine ⟨by decide, by decide, by decide⟩

/-! ## Claim C8: the selection is a subset of present ids -/

/-- The selection invariant: every selected id belongs to an event of
the working sequence. -/
def selectionOK (s : EditorState) : Prop :=
  ∀ id ∈ s.selectedIds, id ∈ s.events.map (fun e => e.id)

/-- Side condition for operations whose arguments come from the UI: a
toggled id is the id of a rendered row, hence present in the working
sequence.  All other operations need nothing. -/
def ActionWF : StoreAction → EditorState → Prop
  | .toggle id _ _ _, s => id ∈ s.events.map (fun e => e.id)
  | _, _ => True

theorem commitEvents_selection (mutator : List EditorEvent → Option EventMutationResult)
    (options : CommitOptions) (s : EditorState) (hs : selectionOK s) :
    selectionOK (commitEvents mutator options s) := by
  rcases hmut : mutator s.events with _ | mutation
  · unfold commitEvents
    rw [hmut]
    by_cases hra : options.resetAnchor = true
    · rw [if_pos hra]
      exact fun id hid => hs id hid
    · rw [if_neg hra]
      exact hs
  · unfold commitEvents
    rw [hmut]
    intro id hid
    change id ∈ (match mutation.selectionOverride with
      | some override => Finset.filter
          (fun i => i ∈ ((recomputeTimeline mutation.next).map
            (fun e : EditorEvent => e.id)).toFinset) override
      | none => Finset.filter
          (fun i => i ∈ ((recomputeTimeline mutation.next).map
            (fun e : EditorEvent => e.id)).toFinset) s.selectedIds) at hid
    show id ∈ (recomputeTimeline mutation.next).map (fun e : EditorEvent => e.id)
    cases hov : mutation.selectionOverride with
    | none =>
      rw [hov] at hid
      exact List.mem_toFinset.mp (Finset.mem_filter.mp hid).2
    | some o =>
      rw [hov] at hid
      exact List.mem_toFinset.mp (Finset.mem_filter.mp hid).2

theorem applyEdit_selection (op : EditOp) (s : EditorState) (hs : selectionOK s) :
    selectionOK (applyEdit op s) := by
  cases op with
  | setDelay id value => exact commitEvents_selection _ _ s hs
  | remove id => exact commitEvents_selection _ _ s hs
  | insert index templates delayTotal oracle => exact commitEvents_selection _ _ s hs
  | applyDelay value =>
    simp only [applyEdit, applyDelayToSelection]
    unfold applyToSelection
    split
    · exact hs
    · exact commitEvents_selection _ _ s hs
  | addDelay delta =>
    simp only [applyEdit, addDelayToSelection]
    unfold applyToSelection
    split
    · exact hs
    · exact commitEvents_selection _ _ s hs
  | clampSmall threshold =>
    simp only [applyEdit, clampSmallDelays]
    unfold applyToSelection
    split
    · exact hs
    · exact commitEvents_selection _ _ s hs
  | deleteSel =>
    simp only [applyEdit]
    unfold deleteSelected
    split
    · exact hs
    · exact commitEvents_selection _ _ s hs

theorem applyAction_selection (a : StoreAction) (s : EditorState)
    (hs : selectionOK s) (hwf : ActionWF a s) : selectionOK (applyAction a s) := by
  cases a with
  | edit op => exact applyEdit_selection op s hs
  | load fileName bytes =>
    simp only [applyAction]
    unfold loadFile
    split
    · exact hs
    · intro id hid
      exact absurd hid (Finset.not_mem_empty id)
  | merge bytes oracle =>
    simp only [applyAction]
    unfold mergeFile
    split
    · exact hs
    · exact commitEvents_selection _ _ _ (fun id hid => hs id hid)
  | reset =>
    simp only [applyAction]
    unfold resetChanges
    split
    · exact hs
    · intro id hid
      exact absurd hid (Finset.not_mem_empty id)
  | undoA =>
    simp only [applyAction]
    unfold undo
    split
    · exact hs
    · intro id hid
      exact absurd hid (Finset.not_mem_empty id)
  | redoA =>
    simp only [applyAction]
    unfold redo
    split
    · exact hs
    · intro id hid
      exact absurd hid (Finset.not_mem_empty id)
  | toggle id index shift meta =>
    simp only [applyAction]
    unfold toggleSelection
    split
    · intro x hx
      rcases Finset.mem_union.mp hx with hb | hr
      · split at hb
        · exact hs x hb
        · exact absurd hb (Finset.not_mem_empty x)
      · rcases List.mem_map.mp (List.mem_toFinset.mp hr) with ⟨e, he, hex⟩
        exact hex ▸ List.mem_map.mpr
          ⟨e, List.drop_subset _ _ (List.take_subset _ _ he), rfl⟩
    · intro x hx
      by_cases hmem : id ∈ s.selectedIds
      · rw [if_pos hmem] at hx
        exact hs x (Finset.mem_of_mem_erase hx)
      · rw [if_neg hmem] at hx
        rcases Finset.mem_insert.mp hx with rfl | hold
        · exact hwf
        · exact hs x hold
  | selectAllA =>
    intro id hid
    exact List.mem_toFinset.mp hid
  | clearSel =>
    intro id hid
    exact absurd hid (Finset.not_mem_empty id)

theorem recomputeRest_map_id (l : List EditorEvent) :
    ∀ elapsed, (recomputeRest elapsed l).map (fun e => e.id) = l.map (fun e => e.id) := by
  induction l with
  | nil => intro _; rfl
  | cons e r ih =>
    intro elapsed
    simp [recomputeRest, ih]

theorem recompute_map_id (l : List EditorEvent) :
    (recomputeTimeline l).map (fun e => e.id) = l.map (fun e => e.id) := by
  cases l with
  | nil => rfl
  | cons e r => simp [recomputeTimeline, recomputeRest_map_id]

theorem remove_prunes_selection (s : EditorState) (a b c : EventId)
    (hids : s.events.map (fun e => e.id) = [a, b, c]) (hba : b ≠ a) (hbc : b ≠ c)
    (hsel : s.selectedIds = {a, b, c}) :
    (removeEvent b s).selectedIds = {a, c} := by
  obtain ⟨e1, e2, e3, hev, h1, h2, h3⟩ : ∃ e1 e2 e3, s.events = [e1, e2, e3] ∧
      e1.id = a ∧ e2.id = b ∧ e3.id = c := by
    cases hevs : s.events with
    | nil => rw [hevs] at hids; simp at hids
    | cons x t =>
      cases t with
      | nil => rw [hevs] at hids; simp at hids
      | cons y u =>
        cases u with
        | nil => rw [hevs] at hids; simp at hids
        | cons z w =>
          cases w with
          | nil =>
            rw [hevs] at hids
            simp only [List.map_cons, List.map_nil, List.cons.injEq, and_true] at hids
            exact ⟨x, y, z, rfl, hids.1, hids.2.1, hids.2.2⟩
          | cons p q => rw [hevs] at hids; simp at hids
  have hany : s.events.any (fun e => e.id = b) = true := by
    rw [hev]
    simp [h2]
  have hab : ¬(a = b) := fun h => hba h.symm
  have hcb : ¬(c = b) := fun h => hbc h.symm
  have hfilter : s.events.filter (fun e => e.id ≠ b) = [e1, e3] := by
    rw [hev]
    simp [List.filter, h1, h2, h3, hab, hcb]
  simp only [removeEvent, commitEvents, hany, if_true, hfilter]
  rw [hsel]
  ext x
  simp only [Finset.mem_filter, Finset.mem_insert, Finset.mem_singleton,
    List.mem_toFinset, recompute_map_id, List.map_cons, List.map_nil, h1, h3,
    List.mem_cons, List.not_mem_nil, or_false]
  constructor
  · rintro ⟨_, hx⟩
    exact hx
  · rintro (rfl | rfl)
    · exact ⟨Or.inl rfl, Or.inl rfl⟩
    · exact ⟨Or.inr (Or.inr rfl), Or.inr rfl⟩

/-- C8: the selection set is always a subset of the ids present in the
working sequence — every store operation preserves the invariant (the
commit path prunes the selection against the surviving ids; toggling
requires only that the toggled id is a rendered row's id) — and
concretely, selecting ids `{a, b, c}` and removing the event with id
`b` leaves the selection `{a, c}`. -/
theorem selection_subset_invariant :
    (∀ (s : EditorState) (a : StoreAction), selectionOK s → ActionWF a s →
      selectionOK (applyAction a s)) ∧
    (∀ (s : EditorState) (a b c : EventId),
      s.events.map (fun e => e.id) = [a, b, c] → b ≠ a → b ≠ c →
      s.selectedIds = {a, b, c} →
      (removeEvent b s).selectedIds = {a, c}) :=
  ⟨fun s a hs hwf => applyAction_selection a s hs hwf,
   fun s a b c h1 h2 h3 h4 => remove_prunes_selection s a b c h1 h2 h3 h4⟩

def sampleEventC : EditorEvent :=
  {
    id := .loaded 2 9 1 2 3, message := 1, paramL := 2, paramH := 3,
    delay := .finite 4, time := 9, hwnd := 7 }

def sampleState3 : EditorState :=
  {
    events := [sampleEvent, sampleEventB, sampleEventC],
    initialEvents := [sampleEvent, sampleEventB, sampleEventC],
    baseTime := 4, fileName := some "sample.rec", loading := false, error := none,
    isDirty := false,
    selectedIds := {EventId.loaded 0 0 1 2 3, EventId.loaded 1 5 1 2 3,
      EventId.loaded 2 9 1 2 3},
    selectionAnchor := none, history := [], future := [] }

theorem selection_subset_invariant_witness :
    (sampleState3.events.map (fun e => e.id) =
      [EventId.loaded 0 0 1 2 3, EventId.loaded 1 5 1 2 3, EventId.loaded 2 9 1 2 3] ∧
     EventId.loaded 1 5 1 2 3 ≠ EventId.loaded 0 0 1 2 3 ∧
     EventId.loaded 1 5 1 2 3 ≠ EventId.loaded 2 9 1 2 3 ∧
     sampleState3.selectedIds = {EventId.loaded 0 0 1 2 3, EventId.loaded 1 5 1 2 3,
       EventId.loaded 2 9 1 2 3}) ∧
    (removeEvent (EventId.loaded 1 5 1 2 3) sampleState3).selectedIds =
      {EventId.loaded 0 0 1 2 3, EventId.loaded 2 9 1 2 3} :=
  ⟨⟨by decide, by decide, by decide, by decide⟩,
   selection_subset_invariant.2 sampleState3 (EventId.loaded 0 0 1 2 3)
     (EventId.loaded 1 5 1 2 3) (EventId.loaded 2 9 1 2 3)
     (by decide) (by decide) (by decide) (by decide)⟩

/-! ## Claim C7: merge appends with fresh, collision-free ids -/

/-- The fresh ids `insertEvents` assigns to a batch of `k` templates
when the per-element `Date.now()`/`Math.random()` samples are given by
`oracle`, starting at batch position `n`. -/
def freshIdsFrom (oracle : Nat → Nat × Nat) : Nat → Nat → List EventId
  | _, 0 => []
  | n, k + 1 => EventId.fresh (oracle n).1 n (oracle n).2 :: freshIdsFrom oracle (n + 1) k

theorem map_mapWithIndex {α β γ : Type} (g : Nat → α → β) (h : β → γ) :
    ∀ (l : List α) (n : Nat),
      (mapWithIndex g n l).map h = mapWithIndex (fun i a => h (g i a)) n l := by
  intro l
  induction l with
  | nil => intro n; rfl
  | cons a t ih =>
    intro n
    simp [mapWithIndex, ih]

theorem mapWithIndex_fresh (oracle : Nat → Nat × Nat) :
    ∀ (l : List InsertTemplate) (n : Nat),
      mapWithIndex (fun i (_ : InsertTemplate) =>
        EventId.fresh (oracle i).1 i (oracle i).2) n l =
        freshIdsFrom oracle n l.length := by
  intro l
  induction l with
  | nil => intro n; rfl
  | cons a t ih =>
    intro n
    simp [mapWithIndex, freshIdsFrom, ih]

theorem freshIdsFrom_mem (oracle : Nat → Nat × Nat) :
    ∀ (k n : Nat) (id : EventId), id ∈ freshIdsFrom oracle n k →
      ∃ j, n ≤ j ∧ id = EventId.fresh (oracle j).1 j (oracle j).2 := by
  intro k
  induction k with
  | zero => intro n id h; simp [freshIdsFrom] at h
  | succ m ih =>
    intro n id h
    rcases List.mem_cons.mp h with rfl | hmem
    · exact ⟨n, le_refl n, rfl⟩
    · obtain ⟨j, hj, hid⟩ := ih (n + 1) id hmem
      exact ⟨j, by omega, hid⟩

theorem freshIdsFrom_nodup (oracle : Nat → Nat × Nat) :
    ∀ (k n : Nat), (freshIdsFrom oracle n k).Nodup := by
  intro k
  induction k with
  | zero => intro n; simp [freshIdsFrom]
  | succ m ih =>
    intro n
    refine List.nodup_cons.mpr ⟨?_, ih (n + 1)⟩
    intro hmem
    obtain ⟨j, hj, hid⟩ := freshIdsFrom_mem oracle m (n + 1) _ hmem
    have hnj : n = j := (EventId.fresh.inj hid).2.1
    omega

theorem freshIdsFrom_not_loaded (oracle : Nat → Nat × Nat) :
    ∀ (k n : Nat) (id : EventId), id ∈ freshIdsFrom oracle n k → id.isLoaded = false := by
  intro k n id h
  obtain ⟨j, _, hid⟩ := freshIdsFrom_mem oracle k n id h
  rw [hid]
  rfl

theorem mapWithIndex_length {α β : Type} (g : Nat → α → β) :
    ∀ (l : List α) (n : Nat), (mapWithIndex g n l).length = l.length := by
  intro l
  induction l with
  | nil => intro n; rfl
  | cons a t ih =>
    intro n
    simp [mapWithIndex, ih]

theorem createEditorEvents_length (events : List TinyTaskEvent) :
    (createEditorEvents events).length = events.length := by
  unfold createEditorEvents
  exact mapWithIndex_length _ events 0

theorem mergeFile_ok_events (s : EditorState) (bytes : List Nat)
    (oracle : Nat → Nat × Nat) (parsed : ParseResult)
    (hparse : parseRec bytes = .ok parsed) :
    (mergeFile bytes oracle s).events =
      recomputeTimeline (s.events ++
        mapWithIndex (fun i e =>
          ({ id := .fresh (oracle i).1 i (oracle i).2, message := e.message,
             paramL := e.paramL, paramH := e.paramH,
             delay := if i = 0 then JSNum.finite 0 else e.delay.getD (.finite 0),
             time := 0, hwnd := e.hwnd } : EditorEvent)) 0
          ((createEditorEvents parsed.events).map (fun e =>
            ({ message := e.message, paramL := e.paramL, paramH := e.paramH,
               hwnd := e.hwnd, delay := some e.delay } : InsertTemplate)))) := by
  unfold mergeFile
  rw [hparse]
  simp only [insertEvents, commitEvents]
  rw [Nat.min_self, Nat.zero_max, List.take_length, List.drop_length, List.append_nil]

/-- C7: merging a successfully decoded foreign file appends its events
at the end of the current sequence (the resulting id sequence is the
old ids followed by the batch's fresh ids), with zero entry delay for
the first appended event; when the working sequence consists of parsed
(loaded-style) ids, no inserted id collides with an existing id — the
fresh `new-…` ids are disjoint from every loaded id — and the fresh
ids are pairwise distinct within the batch. -/
theorem merge_appends_with_fresh_ids (s : EditorState) (bytes : List Nat)
    (oracle : Nat → Nat × Nat) (parsed : ParseResult)
    (hload : ∀ e ∈ s.events, e.id.isLoaded = true)
    (hparse : parseRec bytes = .ok parsed) :
    ((mergeFile bytes oracle s).events.map (fun e => e.id) =
      s.events.map (fun e => e.id) ++ freshIdsFrom oracle 0 parsed.events.length) ∧
    (∀ id ∈ freshIdsFrom oracle 0 parsed.events.length,
      id ∉ s.events.map (fun e => e.id)) ∧
    (freshIdsFrom oracle 0 parsed.events.length).Nodup ∧
    (parsed.events ≠ [] →
      ((mergeFile bytes oracle s).events.getD s.events.length default).delay =
        JSNum.finite 0) := by
  have hm := mergeFile_ok_events s bytes oracle parsed hparse
  set T := (createEditorEvents parsed.events).map (fun e =>
    ({ message := e.message, paramL := e.paramL, paramH := e.paramH,
       hwnd := e.hwnd, delay := some e.delay } : InsertTemplate)) with hT
  have hTlen : T.length = parsed.events.length := by
    rw [hT, List.length_map, createEditorEvents_length]
  refine ⟨?_, ?_, freshIdsFrom_nodup oracle _ 0, ?_⟩
  · rw [hm, recompute_map_id, List.map_append]
    congr 1
    simp only [map_mapWithIndex]
    rw [mapWithIndex_fresh, hTlen]
  · intro id hmem hcontra
    obtain ⟨e, he, hei⟩ := List.mem_map.mp hcontra
    have h1 := hload e he
    rw [hei] at h1
    have h2 := freshIdsFrom_not_loaded oracle _ 0 id hmem
    rw [h1] at h2
    exact Bool.noConfusion h2
  · intro hne
    rw [hm]
    have hTpos : 0 < T.length := by
      rw [hTlen]
      exact List.length_pos.mpr hne
    have haddslen : (mapWithIndex (fun i e =>
        ({ id := .fresh (oracle i).1 i (oracle i).2, message := e.message,
           paramL := e.paramL, paramH := e.paramH,
           delay := if i = 0 then JSNum.finite 0 else e.delay.getD (.finite 0),
           time := 0, hwnd := e.hwnd } : EditorEvent)) 0 T).length = T.length :=
      mapWithIndex_length _ T 0
    have hlt : s.events.length < (s.events ++ mapWithIndex (fun i e =>
        ({ id := .fresh (oracle i).1 i (oracle i).2, message := e.message,
           paramL := e.paramL, paramH := e.paramH,
           delay := if i = 0 then JSNum.finite 0 else e.delay.getD (.finite 0),
           time := 0, hwnd := e.hwnd } : EditorEvent)) 0 T).length := by
      rw [List.length_append, haddslen]
      omega
    rw [recompute_getD_delay _ _ hlt]
    obtain ⟨t0, ts, hT2⟩ : ∃ t0 ts, T = t0 :: ts := by
      cases hc : T with
      | nil => rw [hc] at hTpos; simp at hTpos
      | cons a b => exact ⟨a, b, rfl⟩
    by_cases h0 : s.events.length = 0
    · rw [if_pos h0]
    · rw [if_neg h0]
      have hgd : ((s.events ++ mapWithIndex (fun i e =>
          ({ id := .fresh (oracle i).1 i (oracle i).2, message := e.message,
             paramL := e.paramL, paramH := e.paramH,
             delay := if i = 0 then JSNum.finite 0 else e.delay.getD (.finite 0),
             time := 0, hwnd := e.hwnd } : EditorEvent)) 0 T).getD
          s.events.length default) = ((mapWithIndex (fun i e =>
          ({ id := .fresh (oracle i).1 i (oracle i).2, message := e.message,
             paramL := e.paramL, paramH := e.paramH,
             delay := if i = 0 then JSNum.finite 0 else e.delay.getD (.finite 0),
             time := 0, hwnd := e.hwnd } : EditorEvent)) 0 T).getD 0 default) := by
        rw [List.getD_append_right, Nat.sub_self]
        exact le_refl _
      rw [hgd, hT2]
      show JSNum.finite ((sanitizeDelay (JSNum.finite 0) : ℕ) : ℚ) = JSNum.finite 0
      have hs0 : sanitizeDelay (JSNum.finite 0) = 0 := by decide
      rw [hs0]
      norm_num

def sampleBytes : List Nat := [1,0,0,0, 2,0,0,0, 3,0,0,0, 4,0,0,0, 5,0,0,0]

def sampleOracle : Nat → Nat × Nat := fun _ => (100, 200)

def sampleParsed : ParseResult :=
  {
    events := [{ message := 1, paramL := 2, paramH := 3, time := 0, delay := 0, hwnd := 5 }],
    baseTime := 4, hwnds := [5], duration := 0 }

theorem merge_appends_with_fresh_ids_witness :
    ((∀ e ∈ sampleState.events, e.id.isLoaded = true) ∧
      parseRec sampleBytes = .ok sampleParsed) ∧
    (((mergeFile sampleBytes sampleOracle sampleState).events.map (fun e => e.id) =
        sampleState.events.map (fun e => e.id) ++
          freshIdsFrom sampleOracle 0 sampleParsed.events.length) ∧
      (∀ id ∈ freshIdsFrom sampleOracle 0 sampleParsed.events.length,
        id ∉ sampleState.events.map (fun e => e.id)) ∧
      (freshIdsFrom sampleOracle 0 sampleParsed.events.length).Nodup ∧
      (sampleParsed.events ≠ [] →
        ((mergeFile sampleBytes sampleOracle sampleState).events.getD
          sampleState.events.length default).delay = JSNum.finite 0)) :=
  ⟨⟨by decide, by rfl⟩,
    merge_appends_with_fresh_ids sampleState sampleBytes sampleOracle sampleParsed
      (by decide) (by rfl)⟩

/-! ## Claim C4: undo/redo inverse -/

theorem undo_empty (s : EditorState) (h : s.history = []) : undo s = s := by
  unfold undo
  rw [h]
  rfl

theorem redo_empty (s : EditorState) (h : s.future = []) : redo s = s := by
  unfold redo
  rw [h]
  rfl

theorem undoN_empty (s : EditorState) (h : s.history = []) :
    ∀ n, undoN n s = s := by
  intro n
  induction n with
  | zero => rfl
  | succ m ih =>
    show undoN m (undo s) = s
    rw [undo_empty s h]
    exact ih

theorem redoN_empty (s : EditorState) (h : s.future = []) :
    ∀ n, redoN n s = s := by
  intro n
  induction n with
  | zero => rfl
  | succ m ih =>
    show redoN m (redo s) = s
    rw [redo_empty s h]
    exact ih

theorem undo_concat (s : EditorState) (H : List (List EditorEvent))
    (hlast : List EditorEvent) (hh : s.history = H ++ [hlast]) :
    undo s =
      { s with
        history := H, future := capPush s.future s.events,
        events := recomputeTimeline hlast,
        selectedIds := ∅, selectionAnchor := none, isDirty := true } := by
  unfold undo
  rw [hh, List.getLast?_concat]
  simp [List.dropLast_concat]

theorem redo_concat (s : EditorState) (F : List (List EditorEvent))
    (flast : List EditorEvent) (hf : s.future = F ++ [flast]) :
    redo s =
      { s with
        future := F, history := capPush s.history s.events,
        events := recomputeTimeline flast,
        selectedIds := ∅, selectionAnchor := none, isDirty := true } := by
  unfold redo
  rw [hf, List.getLast?_concat]
  simp [List.dropLast_concat]

theorem headD_append_single {α : Type} (l : List α) (x d : α) :
    (l ++ [x]).headD d = l.headD x := by
  cases l <;> rfl

theorem undoN_events (n : Nat) :
    ∀ (s : EditorState), s.history.length ≤ n →
      recomputeTimeline s.events = s.events →
      (undoN n s).events = recomputeTimeline (s.history.headD s.events) := by
  induction n with
  | zero =>
    intro s hlen hfix
    have hnil : s.history = [] := List.length_eq_zero.mp (Nat.le_zero.mp hlen)
    rw [hnil]
    exact hfix.symm
  | succ m ih =>
    intro s hlen hfix
    rcases List.eq_nil_or_concat s.history with hnil | ⟨H, hlast, hcat⟩
    · rw [show undoN (m + 1) s = undoN m (undo s) from rfl, undo_empty s hnil,
        undoN_empty s hnil m, hnil]
      exact hfix.symm
    · rw [List.concat_eq_append] at hcat
      rw [show undoN (m + 1) s = undoN m (undo s) from rfl, undo_concat s H hlast hcat]
      have hres := ih { s with
          history := H, future := capPush s.future s.events,
          events := recomputeTimeline hlast,
          selectedIds := ∅, selectionAnchor := none, isDirty := true }
        (by
          show H.length ≤ m
          rw [hcat] at hlen
          simp at hlen
          omega)
        (recompute_idem hlast)
      rw [hres]
      show recomputeTimeline (H.headD (recomputeTimeline hlast)) =
        recomputeTimeline (s.history.headD s.events)
      rw [hcat, headD_append_single]
      cases H with
      | nil => exact recompute_idem hlast
      | cons h t => rfl

theorem redoN_events (n : Nat) :
    ∀ (s : EditorState), s.future.length ≤ n →
      recomputeTimeline s.events = s.events →
      (redoN n s).events = recomputeTimeline (s.future.headD s.events) := by
  induction n with
  | zero =>
    intro s hlen hfix
    have hnil : s.future = [] := List.length_eq_zero.mp (Nat.le_zero.mp hlen)
    rw [hnil]
    exact hfix.symm
  | succ m ih =>
    intro s hlen hfix
    rcases List.eq_nil_or_concat s.future with hnil | ⟨F, flast, hcat⟩
    · rw [show redoN (m + 1) s = redoN m (redo s) from rfl, redo_empty s hnil,
        redoN_empty s hnil m, hnil]
      exact hfix.symm
    · rw [List.concat_eq_append] at hcat
      rw [show redoN (m + 1) s = redoN m (redo s) from rfl, redo_concat s F flast hcat]
      have hres := ih { s with
          future := F, history := capPush s.history s.events,
          events := recomputeTimeline flast,
          selectedIds := ∅, selectionAnchor := none, isDirty := true }
        (by
          show F.length ≤ m
          rw [hcat] at hlen
          simp at hlen
          omega)
        (recompute_idem flast)
      rw [hres]
      show recomputeTimeline (F.headD (recomputeTimeline flast)) =
        recomputeTimeline (s.future.headD s.events)
      rw [hcat, headD_append_single]
      cases F with
      | nil => exact recompute_idem flast
      | cons h t => rfl

/-- The snapshots `undo` pushes onto the redo stack while unwinding a
nonempty history: the current working sequence first, then the
normalized images of the deeper history entries (newest first, the
bottom entry excluded — it becomes the final working sequence). -/
def undoAdds (s : EditorState) : List (List EditorEvent) :=
  match s.history with
  | [] => []
  | _ :: t => s.events :: t.reverse.map recomputeTimeline

theorem undoAdds_length (s : EditorState) : (undoAdds s).length = s.history.length := by
  rcases h : s.history with _ | ⟨a, t⟩ <;> simp [undoAdds, h]

theorem undoN_future (n : Nat) :
    ∀ (s : EditorState), s.history.length ≤ n →
      s.future.length + s.history.length ≤ 50 →
      (undoN n s).future = s.future ++ undoAdds s := by
  induction n with
  | zero =>
    intro s hlen _
    have hnil : s.history = [] := List.length_eq_zero.mp (Nat.le_zero.mp hlen)
    show s.future = s.future ++ undoAdds s
    simp [undoAdds, hnil]
  | succ m ih =>
    intro s hlen hcap
    rcases List.eq_nil_or_concat s.history with hnil | ⟨H, hlast, hcat⟩
    · rw [show undoN (m + 1) s = undoN m (undo s) from rfl, undo_empty s hnil,
        undoN_empty s hnil m]
      simp [undoAdds, hnil]
    · rw [List.concat_eq_append] at hcat
      have hlenH : H.length ≤ m := by
        rw [hcat] at hlen
        simp at hlen
        omega
      have hcapPush : capPush s.future s.events = s.future ++ [s.events] := by
        unfold capPush
        rw [if_neg]
        rw [hcat] at hcap
        simp only [HISTORY_LIMIT, List.length_append, List.length_cons,
          List.length_nil] at hcap ⊢
        omega
      rw [show undoN (m + 1) s = undoN m (undo s) from rfl, undo_concat s H hlast hcat]
      have hres := ih { s with
          history := H, future := capPush s.future s.events,
          events := recomputeTimeline hlast,
          selectedIds := ∅, selectionAnchor := none, isDirty := true }
        hlenH
        (by
          show (capPush s.future s.events).length + H.length ≤ 50
          rw [hcapPush]
          rw [hcat] at hcap
          simp only [List.length_append, List.length_cons, List.length_nil] at hcap ⊢
          omega)
      rw [hres, hcapPush, List.append_assoc]
      congr 1
      show s.events :: undoAdds { s with
          history := H, future := capPush s.future s.events,
          events := recomputeTimeline hlast,
          selectedIds := ∅, selectionAnchor := none, isDirty := true } = undoAdds s
      cases H with
      | nil => simp [undoAdds, hcat]
      | cons h1 t => simp [undoAdds, hcat, List.reverse_append]

/-- Invariant of a store whose redo stack is empty after at most `k`
tracked mutations from a normalized sequence `E0`: the history holds at
most `k` snapshots, the bottom snapshot (or, with empty history, the
working sequence itself) is `E0`, and the working sequence is a fixed
point of the normalizer. -/
def UndoReady (E0 : List EditorEvent) (k : Nat) (s : EditorState) : Prop :=
  s.history.length ≤ k ∧ s.future = [] ∧ recomputeTimeline s.events = s.events ∧
    s.history.headD s.events = E0

theorem undoReady_mono (E0 : List EditorEvent) (k k' : Nat) (s : EditorState)
    (h : UndoReady E0 k s) (hk : k ≤ k') : UndoReady E0 k' s :=
  ⟨le_trans h.1 hk, h.2.1, h.2.2.1, h.2.2.2⟩

theorem commit_undoReady (mutator : List EditorEvent → Option EventMutationResult)
    (options : CommitOptions) (hopt : options.trackHistory = true) (s : EditorState)
    (E0 : List EditorEvent) (k : Nat) (hk : k + 1 ≤ 50) (h : UndoReady E0 k s) :
    UndoReady E0 (k + 1) (commitEvents mutator options s) := by
  obtain ⟨hlen, hfut, hfix, hhead⟩ := h
  rcases hmut : mutator s.events with _ | mutation
  · unfold commitEvents
    rw [hmut]
    by_cases hra : options.resetAnchor = true
    · rw [if_pos hra]
      exact ⟨Nat.le_succ_of_le hlen, hfut, hfix, hhead⟩
    · rw [if_neg hra]
      exact ⟨Nat.le_succ_of_le hlen, hfut, hfix, hhead⟩
  · have hcap : capPush s.history s.events = s.history ++ [s.events] := by
      unfold capPush
      rw [if_neg]
      simp only [HISTORY_LIMIT, List.length_append, List.length_cons, List.length_nil]
      omega
    unfold commitEvents
    rw [hmut]
    simp only [hopt]
    refine ⟨?_, rfl, recompute_idem _, ?_⟩
    · show (capPush s.history s.events).length ≤ k + 1
      rw [hcap]
      simp only [List.length_append, List.length_cons, List.length_nil]
      omega
    · show (capPush s.history s.events).headD
        (recomputeTimeline mutation.next) = E0
      rw [hcap, headD_append_single]
      exact hhead

theorem applyEdit_undoReady (op : EditOp) (s : EditorState) (E0 : List EditorEvent)
    (k : Nat) (hk : k + 1 ≤ 50) (h : UndoReady E0 k s) :
    UndoReady E0 (k + 1) (applyEdit op s) := by
  cases op with
  | setDelay id value =>
    exact commit_undoReady _ { resetAnchor := false, trackHistory := true } rfl s E0 k hk h
  | remove id =>
    exact commit_undoReady _ { resetAnchor := false, trackHistory := true } rfl s E0 k hk h
  | insert index templates delayTotal oracle =>
    exact commit_undoReady _ { resetAnchor := false, trackHistory := true } rfl s E0 k hk h
  | applyDelay value =>
    simp only [applyEdit, applyDelayToSelection]
    unfold applyToSelection
    split
    · exact undoReady_mono E0 k (k + 1) s h (by omega)
    · exact commit_undoReady _ { resetAnchor := false, trackHistory := true } rfl s E0 k hk h
  | addDelay delta =>
    simp only [applyEdit, addDelayToSelection]
    unfold applyToSelection
    split
    · exact undoReady_mono E0 k (k + 1) s h (by omega)
    · exact commit_undoReady _ { resetAnchor := false, trackHistory := true } rfl s E0 k hk h
  | clampSmall threshold =>
    simp only [applyEdit, clampSmallDelays]
    unfold applyToSelection
    split
    · exact undoReady_mono E0 k (k + 1) s h (by omega)
    · exact commit_undoReady _ { resetAnchor := false, trackHistory := true } rfl s E0 k hk h
  | deleteSel =>
    simp only [applyEdit]
    unfold deleteSelected
    split
    · exact undoReady_mono E0 k (k + 1) s h (by omega)
    · exact commit_undoReady _ { resetAnchor := true, trackHistory := true } rfl s E0 k hk h

theorem applyEdits_undoReady (E0 : List EditorEvent) :
    ∀ (ops : List EditOp) (k : Nat) (s : EditorState), UndoReady E0 k s →
      k + ops.length ≤ 50 → UndoReady E0 (k + ops.length) (applyEdits ops s) := by
  intro ops
  induction ops with
  | nil =>
    intro k s h _
    simpa using h
  | cons op rest ih =>
    intro k s h hcap
    show UndoReady E0 (k + (rest.length + 1)) (applyEdits rest (applyEdit op s))
    have h1 := applyEdit_undoReady op s E0 k (by simp at hcap; omega) h
    have h2 := ih (k + 1) (applyEdit op s) h1 (by simp at hcap; omega)
    have heq : k + (rest.length + 1) = k + 1 + rest.length := by omega
    rw [heq]
    exact h2

/-- C4: starting from a clean-history store (as after load), for any
sequence of `n ≤ 50` mutations, performing `n` undos returns the
working sequence to its pre-mutation state, and then performing `n`
redos restores the post-mutation sequence; and an undo with an empty
history stack is a no-op. -/
theorem undo_redo_inverse :
    (∀ (s : EditorState) (ops : List EditOp), ops.length ≤ 50 → s.history = [] →
      s.future = [] → recomputeTimeline s.events = s.events →
      (undoN ops.length (applyEdits ops s)).events = s.events ∧
      (redoN ops.length (undoN ops.length (applyEdits ops s))).events =
        (applyEdits ops s).events) ∧
    (∀ t : EditorState, t.history = [] → undo t = t) := by
  constructor
  · intro s ops hn hh hf hfix
    have h0 : UndoReady s.events 0 s :=
      ⟨by rw [hh]; exact le_refl 0, hf, hfix, by rw [hh]; rfl⟩
    have hinv := applyEdits_undoReady s.events ops 0 s h0 (by omega)
    rw [show 0 + ops.length = ops.length from by omega] at hinv
    obtain ⟨hlen, hfut, hfix', hhead⟩ := hinv
    have hU : (undoN ops.length (applyEdits ops s)).events = s.events := by
      rw [undoN_events ops.length (applyEdits ops s) hlen hfix', hhead, hfix]
    refine ⟨hU, ?_⟩
    rcases hcase : (applyEdits ops s).history with _ | ⟨h1, t⟩
    · rw [undoN_empty (applyEdits ops s) hcase, redoN_empty (applyEdits ops s) hfut]
    · have hfutr := undoN_future ops.length (applyEdits ops s) hlen
        (by rw [hfut]; simp; omega)
      rw [hfut] at hfutr
      simp only [List.nil_append] at hfutr
      have haddlen := undoAdds_length (applyEdits ops s)
      have hulen : (undoN ops.length (applyEdits ops s)).future.length ≤ ops.length := by
        rw [hfutr, haddlen]
        exact hlen
      have hufix : recomputeTimeline (undoN ops.length (applyEdits ops s)).events =
          (undoN ops.length (applyEdits ops s)).events := by
        rw [hU]
        exact hfix
      rw [redoN_events ops.length _ hulen hufix, hfutr]
      have hadds : undoAdds (applyEdits ops s) =
          (applyEdits ops s).events :: t.reverse.map recomputeTimeline := by
        simp [undoAdds, hcase]
      rw [hadds]
      show recomputeTimeline ((applyEdits ops s).events) = (applyEdits ops s).events
      exact hfix'
  · exact fun t ht => undo_empty t ht

theorem undo_redo_inverse_witness :
    (([EditOp.setDelay (.loaded 0 0 1 2 3) (.finite 5)] : List EditOp).length ≤ 50 ∧
     sampleState.history = [] ∧ sampleState.future = [] ∧
     recomputeTimeline sampleState.events = sampleState.events) ∧
    ((undoN ([EditOp.setDelay (.loaded 0 0 1 2 3) (.finite 5)] : List EditOp).length
        (applyEdits [EditOp.setDelay (.loaded 0 0 1 2 3) (.finite 5)] sampleState)).events =
      sampleState.events ∧
     (redoN ([EditOp.setDelay (.loaded 0 0 1 2 3) (.finite 5)] : List EditOp).length
        (undoN ([EditOp.setDelay (.loaded 0 0 1 2 3) (.finite 5)] : List EditOp).length
          (applyEdits [EditOp.setDelay (.loaded 0 0 1 2 3) (.finite 5)] sampleState))).events =
      (applyEdits [EditOp.setDelay (.loaded 0 0 1 2 3) (.finite 5)] sampleState).events) :=
  ⟨⟨by decide, rfl, rfl, by decide⟩,
   undo_redo_inverse.1 sampleState [EditOp.setDelay (.loaded 0 0 1 2 3) (.finite 5)]
     (by decide) rfl rfl (by decide)⟩
